/-
Verification of the mempool core of an Electrum-style server for a
Ravencoin-family chain (source: electrumx/server/mempool.py).

The Python code is shallowly embedded: byte strings (tx hashes,
scripthashes) are abstracted as naturals, asset names as strings,
Python dicts over ordered keys as sorted association lists (`Mp`),
Python sets as `Finset`, unbounded Python ints as `Nat`/`Int`, and
Python floats (only used by the fee-histogram compactor) as exact
rationals.  Exceptions are made explicit: the asset-script parser
returns a `failed` flag, `_accept_transactions` returns a `crashed`
flag (an uncaught IndexError), and `_process_mempool` returns an
error tag mirroring `DBSyncError`.
-/
import Mathlib

/-! ## A canonical finite map: association list sorted strictly by key.

Python dicts are keyed maps; we use a canonical representation so that
map equality coincides with extensional equality (needed for the
round-trip law). -/

abbrev MpRaw (κ β : Type) : Type := List (κ × β)

def MpSorted {κ β : Type} [LinearOrder κ] (l : MpRaw κ β) : Prop :=
  l.Pairwise fun a b => a.1 < b.1

def Mp (κ β : Type) [LinearOrder κ] : Type :=
  {l : MpRaw κ β // MpSorted l}

instance {κ β : Type} [LinearOrder κ] [DecidableEq β] : DecidableEq (Mp κ β) :=
  fun a b => decidable_of_iff (a.val = b.val) Subtype.val_inj

variable {κ β : Type} [LinearOrder κ]

def mpRawLookup (l : MpRaw κ β) (k : κ) : Option β :=
  match l with
  | [] => none
  | e :: t => if e.1 = k then some e.2 else mpRawLookup t k

def mpRawInsert (k : κ) (v : β) (l : MpRaw κ β) : MpRaw κ β :=
  match l with
  | [] => [(k, v)]
  | e :: t =>
    if k < e.1 then (k, v) :: e :: t
    else if k = e.1 then (k, v) :: t
    else e :: mpRawInsert k v t

def mpRawErase (k : κ) (l : MpRaw κ β) : MpRaw κ β :=
  l.filter fun e => e.1 ≠ k

theorem mem_mpRawInsert {k : κ} {v : β} {l : MpRaw κ β} {x : κ × β}
    (hx : x ∈ mpRawInsert k v l) : x = (k, v) ∨ x ∈ l := by
  induction l with
  | nil => simpa [mpRawInsert] using hx
  | cons e t ih =>
    by_cases h1 : k < e.1
    · simp only [mpRawInsert, if_pos h1, List.mem_cons] at hx
      rcases hx with h | h | h
      · exact Or.inl h
      · exact Or.inr (by simp [h])
      · exact Or.inr (List.mem_cons_of_mem _ h)
    · by_cases h2 : k = e.1
      · simp only [mpRawInsert, if_neg h1, if_pos h2, List.mem_cons] at hx
        rcases hx with h | h
        · exact Or.inl h
        · exact Or.inr (List.mem_cons_of_mem _ h)
      · simp only [mpRawInsert, if_neg h1, if_neg h2, List.mem_cons] at hx
        rcases hx with h | h
        · exact Or.inr (by simp [h])
        · rcases ih h with h' | h'
          · exact Or.inl h'
          · exact Or.inr (List.mem_cons_of_mem _ h')

theorem mpSorted_insert {k : κ} {v : β} {l : MpRaw κ β}
    (hl : MpSorted l) : MpSorted (mpRawInsert k v l) := by
  induction l with
  | nil => simp [mpRawInsert, MpSorted]
  | cons e t ih =>
    rcases List.pairwise_cons.1 hl with ⟨he, ht⟩
    by_cases h1 : k < e.1
    · simp only [mpRawInsert, if_pos h1]
      refine List.pairwise_cons.2 ⟨?_, hl⟩
      intro x hx
      rcases List.mem_cons.1 hx with h | h
      · simpa [h] using h1
      · exact lt_trans h1 (he x h)
    · by_cases h2 : k = e.1
      · simp only [mpRawInsert, if_neg h1, if_pos h2]
        refine List.pairwise_cons.2 ⟨?_, ht⟩
        intro x hx
        simpa [h2] using he x hx
      · simp only [mpRawInsert, if_neg h1, if_neg h2]
        refine List.pairwise_cons.2 ⟨?_, ih ht⟩
        intro x hx
        rcases mem_mpRawInsert hx with h | h
        · have hk : e.1 < k := lt_of_le_of_ne (not_lt.1 h1) (fun h' => h2 h'.symm)
          simpa [h] using hk
        · exact he x h

theorem mpSorted_erase {k : κ} {l : MpRaw κ β}
    (hl : MpSorted l) : MpSorted (mpRawErase k l) :=
  hl.sublist (List.filter_sublist l)

theorem mpRawLookup_insert (l : MpRaw κ β) (k : κ) (v : β) (j : κ) :
    mpRawLookup (mpRawInsert k v l) j
      = if k = j then some v else mpRawLookup l j := by
  induction l with
  | nil => simp [mpRawInsert, mpRawLookup]
  | cons e t ih =>
    rcases lt_trichotomy k e.1 with h1 | h1 | h1
    · have hins : mpRawInsert k v (e :: t) = (k, v) :: e :: t := by
        unfold mpRawInsert
        rw [if_pos h1]
      rw [hins]
      rfl
    · have hins : mpRawInsert k v (e :: t) = (k, v) :: t := by
        unfold mpRawInsert
        rw [if_neg (by rw [h1]; exact lt_irrefl _), if_pos h1]
      rw [hins]
      by_cases h3 : k = j
      · show (if k = j then some v else mpRawLookup t j) = _
        rw [if_pos h3, if_pos h3]
      · show (if k = j then some v else mpRawLookup t j) = _
        rw [if_neg h3, if_neg h3]
        have he : ¬e.1 = j := by rw [← h1]; exact h3
        show mpRawLookup t j = (if e.1 = j then some e.2 else mpRawLookup t j)
        rw [if_neg he]
    · have hne1 : ¬k < e.1 := not_lt.2 (le_of_lt h1)
      have hne2 : ¬k = e.1 := (ne_of_gt h1)
      have hins : mpRawInsert k v (e :: t) = e :: mpRawInsert k v t := by
        show (if k < e.1 then (k, v) :: e :: t
          else if k = e.1 then (k, v) :: t else e :: mpRawInsert k v t) = _
        rw [if_neg hne1, if_neg hne2]
      rw [hins]
      show (if e.1 = j then some e.2 else mpRawLookup (mpRawInsert k v t) j) = _
      by_cases h3 : e.1 = j
      · have hkj : ¬k = j := by
          intro h
          rw [h, ← h3] at h1
          exact lt_irrefl _ h1
        rw [if_pos h3, if_neg hkj]
        show some e.2 = (if e.1 = j then some e.2 else mpRawLookup t j)
        rw [if_pos h3]
      · rw [if_neg h3, ih]
        by_cases h4 : k = j
        · rw [if_pos h4, if_pos h4]
        · rw [if_neg h4, if_neg h4]
          show mpRawLookup t j = (if e.1 = j then some e.2 else mpRawLookup t j)
          rw [if_neg h3]

theorem mpRawLookup_erase (l : MpRaw κ β) (k j : κ) :
    mpRawLookup (mpRawErase k l) j
      = if k = j then none else mpRawLookup l j := by
  induction l with
  | nil => simp [mpRawErase, mpRawLookup]
  | cons e t ih =>
    by_cases h1 : e.1 = k
    · have her : mpRawErase k (e :: t) = mpRawErase k t := by
        simp [mpRawErase, List.filter_cons, h1]
      rw [her, ih]
      by_cases h2 : k = j
      · rw [if_pos h2, if_pos h2]
      · rw [if_neg h2, if_neg h2]
        show mpRawLookup t j = (if e.1 = j then some e.2 else mpRawLookup t j)
        rw [if_neg (by rw [h1]; exact h2)]
    · have her : mpRawErase k (e :: t) = e :: mpRawErase k t := by
        simp [mpRawErase, List.filter_cons, h1]
      rw [her]
      show (if e.1 = j then some e.2 else mpRawLookup (mpRawErase k t) j) = _
      by_cases h2 : e.1 = j
      · have hkj : ¬k = j := by rw [← h2]; exact fun h => h1 h.symm
        rw [if_pos h2, if_neg hkj]
        show some e.2 = (if e.1 = j then some e.2 else mpRawLookup t j)
        rw [if_pos h2]
      · rw [if_neg h2, ih]
        by_cases h3 : k = j
        · rw [if_pos h3, if_pos h3]
        · rw [if_neg h3, if_neg h3]
          show mpRawLookup t j = (if e.1 = j then some e.2 else mpRawLookup t j)
          rw [if_neg h2]

theorem mpRawLookup_eq_none_of_forall_lt {l : MpRaw κ β} {j : κ}
    (h : ∀ x ∈ l, j < x.1) : mpRawLookup l j = none := by
  induction l with
  | nil => rfl
  | cons e t ih =>
    have he : ¬e.1 = j := by
      have := h e (by simp)
      exact fun h' => absurd (h' ▸ this) (lt_irrefl _)
    simp only [mpRawLookup, if_neg he]
    exact ih fun x hx => h x (List.mem_cons_of_mem _ hx)

theorem mpRaw_ext {l₁ l₂ : MpRaw κ β} (h₁ : MpSorted l₁) (h₂ : MpSorted l₂)
    (h : ∀ j, mpRawLookup l₁ j = mpRawLookup l₂ j) : l₁ = l₂ := by
  induction l₁ generalizing l₂ with
  | nil =>
    cases l₂ with
    | nil => rfl
    | cons e t =>
      have := h e.1
      simp [mpRawLookup] at this
  | cons e t ih =>
    cases l₂ with
    | nil =>
      have := h e.1
      simp [mpRawLookup] at this
    | cons f s =>
      rcases List.pairwise_cons.1 h₁ with ⟨he, ht⟩
      rcases List.pairwise_cons.1 h₂ with ⟨hf, hs⟩
      have hkey : e.1 = f.1 := by
        rcases lt_trichotomy e.1 f.1 with hlt | heq | hgt
        · exfalso
          have h1 := h e.1
          have : mpRawLookup (f :: s) e.1 = none := by
            apply mpRawLookup_eq_none_of_forall_lt
            intro x hx
            rcases List.mem_cons.1 hx with hx' | hx'
            · rw [hx']; exact hlt
            · exact lt_trans hlt (hf x hx')
          rw [this] at h1
          simp [mpRawLookup] at h1
        · exact heq
        · exfalso
          have h1 := h f.1
          have : mpRawLookup (e :: t) f.1 = none := by
            apply mpRawLookup_eq_none_of_forall_lt
            intro x hx
            rcases List.mem_cons.1 hx with hx' | hx'
            · rw [hx']; exact hgt
            · exact lt_trans hgt (he x hx')
          rw [this] at h1
          simp [mpRawLookup] at h1
      have hval : e.2 = f.2 := by
        have h1 := h e.1
        simp [mpRawLookup, hkey] at h1
        exact h1
      have htail : t = s := by
        apply ih ht hs
        intro j
        by_cases hj : e.1 = j
        · have htn : mpRawLookup t j = none := by
            apply mpRawLookup_eq_none_of_forall_lt
            intro x hx
            rw [← hj]
            exact he x hx
          have hsn : mpRawLookup s j = none := by
            apply mpRawLookup_eq_none_of_forall_lt
            intro x hx
            rw [← hj, hkey]
            exact hf x hx
          rw [htn, hsn]
        · have h1 := h j
          have hfj : ¬f.1 = j := by rw [← hkey]; exact fun h' => hj h'
          simpa [mpRawLookup, hj, hfj] using h1
      calc e :: t = (e.1, e.2) :: t := by simp
        _ = (f.1, f.2) :: s := by rw [hkey, hval, htail]
        _ = f :: s := by simp

def mpEmpty : Mp κ β := ⟨[], List.Pairwise.nil⟩

def mpLookup (m : Mp κ β) (k : κ) : Option β := mpRawLookup m.val k

def mpInsert (k : κ) (v : β) (m : Mp κ β) : Mp κ β :=
  ⟨mpRawInsert k v m.val, mpSorted_insert m.property⟩

def mpErase (k : κ) (m : Mp κ β) : Mp κ β :=
  ⟨mpRawErase k m.val, mpSorted_erase m.property⟩

def mpKeys (m : Mp κ β) : List κ := m.val.map Prod.fst

theorem mpLookup_mpInsert (m : Mp κ β) (k : κ) (v : β) (j : κ) :
    mpLookup (mpInsert k v m) j = if k = j then some v else mpLookup m j :=
  mpRawLookup_insert m.val k v j

theorem mpLookup_mpErase (m : Mp κ β) (k j : κ) :
    mpLookup (mpErase k m) j = if k = j then none else mpLookup m j :=
  mpRawLookup_erase m.val k j

theorem mp_ext {m₁ m₂ : Mp κ β}
    (h : ∀ j, mpLookup m₁ j = mpLookup m₂ j) : m₁ = m₂ :=
  Subtype.ext (mpRaw_ext m₁.property m₂.property h)

theorem mem_mpKeys_iff (m : Mp κ β) (k : κ) :
    k ∈ mpKeys m ↔ mpLookup m k ≠ none := by
  rcases m with ⟨l, hl⟩
  show k ∈ l.map Prod.fst ↔ mpRawLookup l k ≠ none
  clear hl
  induction l with
  | nil => simp [mpRawLookup]
  | cons e t ih =>
    by_cases h1 : e.1 = k
    · simp [mpRawLookup, h1]
    · have h1' : ¬k = e.1 := fun h => h1 h.symm
      simp [mpRawLookup, h1, h1', ih]

/-! ## Data model

`OutPair` is the `(hashX, value, is_asset, asset_name)` tuple of the
source; `MemPoolTx` and `AssetIssuance` mirror the source records.
Scripthashes and tx hashes are abstracted as naturals. -/

structure OutPair where
  hashX : Nat
  value : Nat
  is_asset : Bool
  asset_name : Option String
deriving DecidableEq

structure MemPoolTx where
  prevouts : List (Nat × Nat)
  in_pairs : Option (List OutPair)
  out_pairs : List OutPair
  fee : Int
  size : Nat
deriving DecidableEq

structure AssetIssuance where
  sats_in_circulation : Nat
  divisions : Nat
  reissuable : Bool
  has_ipfs : Bool
  ipfs : Option (List Nat)
  source_tx : Nat
  source_pos : Nat
  source_height : Int
deriving DecidableEq

/-! ## Byte-stream parser.

Modelled from the spec: `electrumx.lib.util.DataParser` is not under
src/; the spec describes the reads used by the asset parser ("Skip 3
header bytes", "Read one byte asset_type", "Read a varint-length-prefixed
asset_name", 8-byte little-endian value, single-byte flag reads, 34-byte
metadata reads), each raising on exhausted input. -/

structure DataParser where
  data : List Nat
  cursor : Nat
deriving DecidableEq

def dpLength (p : DataParser) : Nat := p.data.length

def dpReadBytes (p : DataParser) (n : Nat) : Option (List Nat × DataParser) :=
  if p.cursor + n ≤ p.data.length then
    some ((p.data.drop p.cursor).take n, ⟨p.data, p.cursor + n⟩)
  else none

def dpReadInt (p : DataParser) : Option (Nat × DataParser) :=
  match p.data[p.cursor]? with
  | some b => some (b, ⟨p.data, p.cursor + 1⟩)
  | none => none

def dpReadVarBytes (p : DataParser) : Option (List Nat × DataParser) :=
  match dpReadInt p with
  | none => none
  | some (n, p') => dpReadBytes p' n

def leBytesToNat (bs : List Nat) : Nat :=
  bs.foldr (fun b acc => b + 256 * acc) 0

def decodeAscii (bs : List Nat) : Option String :=
  if bs.all (· < 128) then some (String.mk (bs.map fun b => Char.ofNat b))
  else none

/-! ## Asset-output parser (the `try` block of `deserialize_txs`).

This embeds lines 436-511 of mempool.py: the parse of the asset data
push that follows `OP_RVN_ASSET`.  `asset_script` is `none` when
`ops[op_ptr + 1]` does not exist or is not a data push (its access
raises, landing in the same `except` handler).  The `failed` flag
records whether the `except Exception` handler ran.  Crucially, list
appends performed before the exception survive it, and the `value`
local is overwritten by the 8-byte payload read before the name is
ASCII-decoded for the append. -/

structure AssetParseResult where
  pairs : List OutPair
  create : Option (String × AssetIssuance)
  reissue : Option (String × AssetIssuance)
  failed : Bool
deriving DecidableEq

def degradedPair (hashX v : Nat) : OutPair := ⟨hashX, v, false, none⟩

def parseAssetScript (tx_hash vout_n hashX value0 : Nat)
    (asset_script : Option (List Nat)) : AssetParseResult :=
  match asset_script with
  | none => ⟨[degradedPair hashX value0], none, none, true⟩
  | some s =>
    let p0 : DataParser := ⟨s, 0⟩
    match dpReadBytes p0 3 with
    | none => ⟨[degradedPair hashX value0], none, none, true⟩
    | some (_, p1) =>
    match dpReadInt p1 with
    | none => ⟨[degradedPair hashX value0], none, none, true⟩
    | some (asset_type, p2) =>
    match dpReadVarBytes p2 with
    | none => ⟨[degradedPair hashX value0], none, none, true⟩
    | some (asset_name, p3) =>
    if asset_type = 111 then
      match decodeAscii asset_name with
      | none => ⟨[degradedPair hashX value0], none, none, true⟩
      | some name =>
        ⟨[⟨hashX, 100000000, true, some name⟩],
         some (name, ⟨100000000, 0, false, false, none, tx_hash, vout_n, -1⟩),
         none, false⟩
    else
      match dpReadBytes p3 8 with
      | none => ⟨[degradedPair hashX value0], none, none, true⟩
      | some (vbytes, p4) =>
        let value := leBytesToNat vbytes
        match decodeAscii asset_name with
        | none => ⟨[degradedPair hashX value], none, none, true⟩
        | some name =>
          let assetPair : OutPair := ⟨hashX, value, true, some name⟩
          if asset_type = 114 then
            match dpReadInt p4 with
            | none => ⟨[assetPair, degradedPair hashX value], none, none, true⟩
            | some (divisions, p5) =>
            match dpReadInt p5 with
            | none => ⟨[assetPair, degradedPair hashX value], none, none, true⟩
            | some (reissuable, p6) =>
              let asset_data : Option (List Nat) :=
                if p6.cursor + 34 ≤ dpLength p6 then
                  some ((p6.data.drop p6.cursor).take 34)
                else none
              ⟨[assetPair], none,
               some (name, ⟨value, divisions, reissuable ≠ 0, asset_data.isSome,
                            asset_data, tx_hash, vout_n, -1⟩),
               false⟩
          else if asset_type = 113 then
            match dpReadInt p4 with
            | none => ⟨[assetPair, degradedPair hashX value], none, none, true⟩
            | some (divisions, p5) =>
            match dpReadInt p5 with
            | none => ⟨[assetPair, degradedPair hashX value], none, none, true⟩
            | some (reissuable, p6) =>
            match dpReadInt p6 with
            | none => ⟨[assetPair, degradedPair hashX value], none, none, true⟩
            | some (has_meta, p7) =>
              if has_meta ≠ 0 then
                match dpReadBytes p7 34 with
                | none => ⟨[assetPair, degradedPair hashX value], none, none, true⟩
                | some (asset_data, _) =>
                  ⟨[assetPair],
                   some (name, ⟨value, divisions, reissuable ≠ 0, true,
                                some asset_data, tx_hash, vout_n, -1⟩),
                   none, false⟩
              else
                ⟨[assetPair],
                 some (name, ⟨value, divisions, reissuable ≠ 0, false,
                              none, tx_hash, vout_n, -1⟩),
                 none, false⟩
          else
            ⟨[assetPair], none, none, false⟩

/-! ## Acceptance engine (`_accept_transactions`, lines 245-294).

`pyDictGet` mirrors Python dict lookup on a key/value list built by
successive writes (the last write wins).  Resolution of a prevout
mirrors the `try` block: a `utxo_map` hit, else `txs[prev_hash]`
(KeyError caught, deferring the tx), else `out_pairs[prev_index]`
(IndexError NOT caught: the `crashed` flag records the uncaught
exception aborting the whole call, with all mutations so far kept). -/

abbrev Prevout := Nat × Nat

def pyDictGet {κ β : Type} [DecidableEq κ] (l : List (κ × β)) (k : κ) : Option β :=
  l.foldl (fun acc e => if e.1 = k then some e.2 else acc) none

inductive ResolveOut where
  | ok (pairs : List OutPair)
  | keyErr
  | idxErr
deriving DecidableEq

def resolvePrevouts (utxo_map : List (Prevout × OutPair)) (txs : Mp Nat MemPoolTx) :
    List Prevout → ResolveOut
  | [] => .ok []
  | pv :: rest =>
    match pyDictGet utxo_map pv with
    | some u =>
      match resolvePrevouts utxo_map txs rest with
      | .ok pairs => .ok (u :: pairs)
      | e => e
    | none =>
      match mpLookup txs pv.1 with
      | none => .keyErr
      | some ptx =>
        match ptx.out_pairs[pv.2]? with
        | none => .idxErr
        | some u =>
          match resolvePrevouts utxo_map txs rest with
          | .ok pairs => .ok (u :: pairs)
          | e => e

def nativeSum (pairs : List OutPair) : Int :=
  (pairs.map fun p => if p.is_asset then 0 else (p.value : Int)).sum

def hashXsAdd (tx_hash : Nat) (pairs : List OutPair)
    (hashXs : Mp Nat (Finset Nat)) (touched : Finset Nat) :
    Mp Nat (Finset Nat) × Finset Nat :=
  pairs.foldl
    (fun acc p =>
      (mpInsert p.hashX (insert tx_hash ((mpLookup acc.1 p.hashX).getD ∅)) acc.1,
       insert p.hashX acc.2))
    (hashXs, touched)

structure AccState where
  txs : Mp Nat MemPoolTx
  hashXs : Mp Nat (Finset Nat)
  deferred : List (Nat × MemPoolTx)
  unspent : Finset Prevout
  touched : Finset Nat
  assets_touched : Finset String
  crashed : Bool

def acceptStep (tx_to_create tx_to_reissue : Mp Nat (Finset String))
    (utxo_map : List (Prevout × OutPair)) (st : AccState)
    (entry : Nat × MemPoolTx) : AccState :=
  if st.crashed then st else
  match resolvePrevouts utxo_map st.txs entry.2.prevouts with
  | .keyErr => {st with deferred := st.deferred ++ [entry]}
  | .idxErr => {st with crashed := true}
  | .ok in_pairs =>
    let tx' : MemPoolTx :=
      {entry.2 with
        in_pairs := some in_pairs,
        fee := max 0 (nativeSum in_pairs - nativeSum entry.2.out_pairs)}
    let hxs := hashXsAdd entry.1 (in_pairs ++ entry.2.out_pairs) st.hashXs st.touched
    {st with
      txs := mpInsert entry.1 tx' st.txs,
      hashXs := hxs.1,
      touched := hxs.2,
      unspent := st.unspent \ entry.2.prevouts.toFinset,
      assets_touched :=
        (st.assets_touched ∪ (mpLookup tx_to_create entry.1).getD ∅)
          ∪ (mpLookup tx_to_reissue entry.1).getD ∅}

def acceptTransactions (tx_to_create tx_to_reissue : Mp Nat (Finset String))
    (txs : Mp Nat MemPoolTx) (hashXs : Mp Nat (Finset Nat))
    (tx_map : List (Nat × MemPoolTx)) (utxo_map : List (Prevout × OutPair))
    (touched : Finset Nat) (assets_touched : Finset String) :
    AccState × List (Prevout × OutPair) :=
  let st := tx_map.foldl (acceptStep tx_to_create tx_to_reissue utxo_map)
    ⟨txs, hashXs, [], (utxo_map.map Prod.fst).toFinset, touched, assets_touched, false⟩
  (st, utxo_map.filter fun e => e.1 ∈ st.unspent)

theorem acceptStep_deferred_sublist (tc tr : Mp Nat (Finset String))
    (u : List (Prevout × OutPair)) (st : AccState) (e : Nat × MemPoolTx) :
    (acceptStep tc tr u st e).deferred.Sublist (st.deferred ++ [e]) := by
  unfold acceptStep
  by_cases hc : st.crashed
  · rw [if_pos hc]
    exact List.sublist_append_left _ _
  · rw [if_neg hc]
    rcases hr : resolvePrevouts u st.txs e.2.prevouts with pairs | _ | _
    · exact List.sublist_append_left _ _
    · exact List.Sublist.refl _
    · exact List.sublist_append_left _ _

theorem foldl_acceptStep_deferred_sublist (tc tr : Mp Nat (Finset String))
    (u : List (Prevout × OutPair)) (l : List (Nat × MemPoolTx)) :
    ∀ st : AccState,
      ((l.foldl (acceptStep tc tr u) st).deferred).Sublist (st.deferred ++ l) := by
  induction l with
  | nil => intro st; simp
  | cons e t ih =>
    intro st
    have h1 := ih (acceptStep tc tr u st e)
    have h2 : ((acceptStep tc tr u st e).deferred ++ t).Sublist
        ((st.deferred ++ [e]) ++ t) :=
      (acceptStep_deferred_sublist tc tr u st e).append_right t
    have h3 := h1.trans h2
    simpa using h3

theorem acceptTransactions_deferred_sublist (tc tr : Mp Nat (Finset String))
    (txs : Mp Nat MemPoolTx) (hashXs : Mp Nat (Finset Nat))
    (tx_map : List (Nat × MemPoolTx)) (utxo_map : List (Prevout × OutPair))
    (touched : Finset Nat) (assets : Finset String) :
    ((acceptTransactions tc tr txs hashXs tx_map utxo_map touched assets).1.deferred).Sublist
      tx_map := by
  have := foldl_acceptStep_deferred_sublist tc tr utxo_map tx_map
    ⟨txs, hashXs, [], (utxo_map.map Prod.fst).toFinset, touched, assets, false⟩
  simpa [acceptTransactions] using this

theorem acceptTransactions_deferred_length_le (tc tr : Mp Nat (Finset String))
    (txs : Mp Nat MemPoolTx) (hashXs : Mp Nat (Finset Nat))
    (tx_map : List (Nat × MemPoolTx)) (utxo_map : List (Prevout × OutPair))
    (touched : Finset Nat) (assets : Finset String) :
    ((acceptTransactions tc tr txs hashXs tx_map utxo_map touched assets).1.deferred).length
      ≤ tx_map.length :=
  (acceptTransactions_deferred_sublist tc tr txs hashXs tx_map utxo_map touched assets).length_le

/-! ## The fixed-point loop of `_process_mempool` (lines 372-379).

`prior` plays the role of `prior_count`; the loop body re-runs
`_accept_transactions` while the deferred map is non-empty and its
size changed.  An uncaught IndexError mid-pass aborts the loop with
the partially mutated indices kept.  The `while` loop is modelled with
explicit fuel (first argument); since each continuing pass strictly
shrinks the deferred map, `tx_map.length + 1` steps always suffice
and the fuel-out base case is unreachable at that bound. -/

structure LoopResult where
  txs : Mp Nat MemPoolTx
  hashXs : Mp Nat (Finset Nat)
  tx_map : List (Nat × MemPoolTx)
  utxo_map : List (Prevout × OutPair)
  touched : Finset Nat
  assets_touched : Finset String
  crashed : Bool

def acceptLoop : Nat → Mp Nat (Finset String) → Mp Nat (Finset String) →
    Mp Nat MemPoolTx → Mp Nat (Finset Nat) → Finset Nat → Finset String →
    List (Nat × MemPoolTx) → List (Prevout × OutPair) → Nat → LoopResult
  | 0, _tc, _tr, txs, hashXs, touched, assets_touched, tx_map, utxo_map,
      _prior =>
    ⟨txs, hashXs, tx_map, utxo_map, touched, assets_touched, false⟩
  | fuel + 1, tc, tr, txs, hashXs, touched, assets_touched, tx_map, utxo_map,
      prior =>
    if tx_map ≠ [] ∧ tx_map.length ≠ prior then
      if (acceptTransactions tc tr txs hashXs tx_map utxo_map touched assets_touched).1.crashed then
        ⟨(acceptTransactions tc tr txs hashXs tx_map utxo_map touched assets_touched).1.txs,
         (acceptTransactions tc tr txs hashXs tx_map utxo_map touched assets_touched).1.hashXs,
         (acceptTransactions tc tr txs hashXs tx_map utxo_map touched assets_touched).1.deferred,
         (acceptTransactions tc tr txs hashXs tx_map utxo_map touched assets_touched).2,
         (acceptTransactions tc tr txs hashXs tx_map utxo_map touched assets_touched).1.touched,
         (acceptTransactions tc tr txs hashXs tx_map utxo_map touched assets_touched).1.assets_touched,
         true⟩
      else
        acceptLoop fuel tc tr
          (acceptTransactions tc tr txs hashXs tx_map utxo_map touched assets_touched).1.txs
          (acceptTransactions tc tr txs hashXs tx_map utxo_map touched assets_touched).1.hashXs
          (acceptTransactions tc tr txs hashXs tx_map utxo_map touched assets_touched).1.touched
          (acceptTransactions tc tr txs hashXs tx_map utxo_map touched assets_touched).1.assets_touched
          (acceptTransactions tc tr txs hashXs tx_map utxo_map touched assets_touched).1.deferred
          (acceptTransactions tc tr txs hashXs tx_map utxo_map touched assets_touched).2
          tx_map.length
    else ⟨txs, hashXs, tx_map, utxo_map, touched, assets_touched, false⟩

/-! ## Mempool state and the reconciler (`_process_mempool`, lines 323-381).

The six in-memory indices.  Iteration over a Python set is modelled by
iterating its sorted element list (evictions of distinct txs commute,
so the arbitrary set order of the source is inessential). -/

structure MState where
  txs : Mp Nat MemPoolTx
  hashXs : Mp Nat (Finset Nat)
  asset_creates : Mp String AssetIssuance
  tx_to_asset_create : Mp Nat (Finset String)
  asset_reissues : Mp String AssetIssuance
  tx_to_asset_reissue : Mp Nat (Finset String)

def txHashXs (tx : MemPoolTx) : Finset Nat :=
  ((tx.in_pairs.getD []).map OutPair.hashX).toFinset
    ∪ (tx.out_pairs.map OutPair.hashX).toFinset

def eraseAllAssets (names : List String) (m : Mp String AssetIssuance) :
    Mp String AssetIssuance :=
  names.foldl (fun acc a => mpErase a acc) m

def hashXsRemove (tx_hash : Nat) (shs : List Nat)
    (hashXs : Mp Nat (Finset Nat)) : Mp Nat (Finset Nat) :=
  shs.foldl
    (fun acc sh =>
      let s := ((mpLookup acc sh).getD ∅).erase tx_hash
      if s = ∅ then mpErase sh acc else mpInsert sh s acc)
    hashXs

def evictOne (S : MState) (touched : Finset Nat) (tx_hash : Nat) :
    MState × Finset Nat :=
  match mpLookup S.txs tx_hash with
  | none => (S, touched)
  | some tx =>
    let reissued := (mpLookup S.tx_to_asset_reissue tx_hash).getD ∅
    let created := (mpLookup S.tx_to_asset_create tx_hash).getD ∅
    let hs := txHashXs tx
    (⟨mpErase tx_hash S.txs,
      hashXsRemove tx_hash (hs.sort (· ≤ ·)) S.hashXs,
      eraseAllAssets (created.sort (· ≤ ·)) S.asset_creates,
      mpErase tx_hash S.tx_to_asset_create,
      eraseAllAssets (reissued.sort (· ≤ ·)) S.asset_reissues,
      mpErase tx_hash S.tx_to_asset_reissue⟩,
     touched ∪ hs)

def evictAll (S : MState) (touched : Finset Nat) (all_hashes : Finset Nat) :
    MState × Finset Nat :=
  ((mpKeys S.txs).filter fun h => h ∉ all_hashes).foldl
    (fun acc h => evictOne acc.1 acc.2 h) (S, touched)

/-! ## Per-batch asset-issuance registration (lines 521-533).

Identical loops run for the creates and the reissues maps. -/

def registerIssuances (internal : List (String × AssetIssuance))
    (tx_to : Mp Nat (Finset String)) (byName : Mp String AssetIssuance) :
    Mp Nat (Finset String) × Mp String AssetIssuance :=
  internal.foldl
    (fun acc e =>
      (mpInsert e.2.source_tx
        (insert e.1 ((mpLookup acc.1 e.2.source_tx).getD ∅)) acc.1,
       mpInsert e.1 e.2 acc.2))
    (tx_to, byName)

/-! ## External prevout resolution (lines 540-552).

`buildUtxoMap` embeds the source exactly: the utxo-lookup tuples and
the asset-lookup tuples are appended into one list which is then
zipped against the prevouts. -/

def fetchPrevouts (tx_map : List (Nat × MemPoolTx)) (all_hashes : Finset Nat) :
    List Prevout :=
  (tx_map.map Prod.snd).foldr
    (fun tx acc => (tx.prevouts.filter fun pv => pv.1 ∉ all_hashes) ++ acc) []

def buildUtxoMap (prevouts : List Prevout) (utxoRes : List (Nat × Nat))
    (assetRes : List (Nat × Nat × String)) : List (Prevout × OutPair) :=
  let utxos := utxoRes.map (fun e => OutPair.mk e.1 e.2 false none)
    ++ assetRes.map (fun e => OutPair.mk e.1 e.2.1 true (some e.2.2))
  prevouts.zip utxos

/-! ## One run of `_process_mempool`.

External data (the node's hash set, the deserialised new transactions,
the per-batch parser registrations, the aligned DB lookup results) are
inputs.  The source chunks new hashes 200 at a time into concurrent
`_fetch_and_accept` calls; the model is the single-batch instance. -/

inductive PMErr where
  | dbSync
  | idxErr
deriving DecidableEq

structure PMIn where
  all_hashes : Finset Nat
  mempool_height : Nat
  db_height : Nat
  tx_map : List (Nat × MemPoolTx)
  internal_creates : List (String × AssetIssuance)
  internal_reissues : List (String × AssetIssuance)
  utxo_res : List (Nat × Nat)
  asset_res : List (Nat × Nat × String)

structure PMOut where
  state : MState
  touched : Finset Nat
  assets_touched : Finset String
  err : Option PMErr

def processMempool (S : MState) (touched : Finset Nat)
    (assets_touched : Finset String) (inp : PMIn) : PMOut :=
  if inp.mempool_height ≠ inp.db_height then
    ⟨S, touched, assets_touched, some .dbSync⟩
  else
    let ev := evictAll S touched inp.all_hashes
    let S1 := ev.1
    let new_hashes := inp.all_hashes \ (mpKeys S1.txs).toFinset
    if new_hashes = ∅ then ⟨S1, ev.2, assets_touched, none⟩
    else
      let reg1 := registerIssuances inp.internal_creates
        S1.tx_to_asset_create S1.asset_creates
      let reg2 := registerIssuances inp.internal_reissues
        S1.tx_to_asset_reissue S1.asset_reissues
      let utxo_map := buildUtxoMap (fetchPrevouts inp.tx_map inp.all_hashes)
        inp.utxo_res inp.asset_res
      let r1 := acceptTransactions reg1.1 reg2.1 S1.txs S1.hashXs
        inp.tx_map utxo_map ev.2 assets_touched
      if r1.1.crashed then
        ⟨⟨r1.1.txs, r1.1.hashXs, reg1.2, reg1.1, reg2.2, reg2.1⟩,
         r1.1.touched, r1.1.assets_touched, some .idxErr⟩
      else
        let lr := acceptLoop (r1.1.deferred.length + 1) reg1.1 reg2.1
          r1.1.txs r1.1.hashXs r1.1.touched r1.1.assets_touched
          r1.1.deferred r1.2 0
        ⟨⟨lr.txs, lr.hashXs, reg1.2, reg1.1, reg2.2, reg2.1⟩,
         lr.touched, lr.assets_touched,
         if lr.crashed then some .idxErr else none⟩

/-! ## One iteration of `_refresh_hashes` (lines 302-321), for a cycle
whose two height reads agree.  On `DBSyncError` the accumulators are
kept; on success `on_mempool(touched, height, assets_touched)` is
published and the accumulators reset to empty.  An uncaught IndexError
propagates (the task dies). -/

structure RefreshOut where
  state : MState
  touched : Finset Nat
  assets_touched : Finset String
  published : Option (Finset Nat × Nat × Finset String)
  err : Option PMErr

def refreshStep (S : MState) (touched : Finset Nat)
    (assets_touched : Finset String) (inp : PMIn) : RefreshOut :=
  match (processMempool S touched assets_touched inp).err with
  | some .dbSync =>
    ⟨(processMempool S touched assets_touched inp).state,
     (processMempool S touched assets_touched inp).touched,
     (processMempool S touched assets_touched inp).assets_touched,
     none, some .dbSync⟩
  | some .idxErr =>
    ⟨(processMempool S touched assets_touched inp).state,
     (processMempool S touched assets_touched inp).touched,
     (processMempool S touched assets_touched inp).assets_touched,
     none, some .idxErr⟩
  | none =>
    ⟨(processMempool S touched assets_touched inp).state, ∅, ∅,
     some ((processMempool S touched assets_touched inp).touched,
       inp.mempool_height,
       (processMempool S touched assets_touched inp).assets_touched),
     none⟩

/-! ## Fee-histogram compaction (`_compress_histogram`, lines 209-243).

Python float arithmetic is modelled by exact rationals (1.1 is the
literal 11/10).  `sorted(histogram.items(), reverse=True)` on a dict
with unique keys is descending insertion sort by fee rate. -/

structure CompactState where
  compact : List (ℚ × Nat)
  cum_size : Nat
  bin_size : ℚ
  prev_fee_rate : Option ℚ

def compressStep (st : CompactState) (fee_rate : ℚ) (size : Nat) : CompactState :=
  let st1 : CompactState :=
    match st.prev_fee_rate with
    | some prev =>
      if (size : ℚ) > 2 * st.bin_size ∧ 0 < st.cum_size then
        ⟨st.compact ++ [(prev, st.cum_size)], 0, st.bin_size * (11 / 10),
         st.prev_fee_rate⟩
      else st
    | none => st
  let st2 : CompactState := {st1 with cum_size := st1.cum_size + size}
  let st3 :=
    if (st2.cum_size : ℚ) > st2.bin_size then
      (⟨st2.compact ++ [(fee_rate, st2.cum_size)], 0,
        st2.bin_size * (11 / 10), st2.prev_fee_rate⟩ : CompactState)
    else st2
  {st3 with prev_fee_rate := some fee_rate}

def sortDescInsert (e : ℚ × Nat) : List (ℚ × Nat) → List (ℚ × Nat)
  | [] => [e]
  | f :: t => if f.1 < e.1 then e :: f :: t else f :: sortDescInsert e t

def sortDesc (l : List (ℚ × Nat)) : List (ℚ × Nat) := l.foldr sortDescInsert []

def compressHistogram (histogram : List (ℚ × Nat)) (bin_size : ℚ) :
    List (ℚ × Nat) :=
  ((sortDesc histogram).foldl (fun st e => compressStep st e.1 e.2)
    ⟨[], 0, bin_size, none⟩).compact

/-- The compaction walk exactly as the spec words it: per entry, a
pre-flush of the previous bucket, accumulation, a post-flush of the
current bucket, and a dropped trailing residue. -/
def compressSpecWalk : List (ℚ × Nat) → Nat → ℚ → Option ℚ → List (ℚ × Nat)
  | [], _cum, _bin, _prev => []
  | (fr, sz) :: rest, cum, bin, prev =>
    if (sz : ℚ) > 2 * bin ∧ prev.isSome ∧ 0 < cum then
      (prev.getD 0, cum) ::
        (if (sz : ℚ) > bin * (11 / 10) then
          (fr, sz) :: compressSpecWalk rest 0 (bin * (11 / 10) * (11 / 10)) (some fr)
        else compressSpecWalk rest sz (bin * (11 / 10)) (some fr))
    else
      if ((cum + sz : Nat) : ℚ) > bin then
        (fr, cum + sz) :: compressSpecWalk rest 0 (bin * (11 / 10)) (some fr)
      else compressSpecWalk rest (cum + sz) bin (some fr)

theorem compressStep_foldl_eq_walk :
    ∀ (l : List (ℚ × Nat)) (acc : List (ℚ × Nat)) (cum : Nat) (bin : ℚ)
      (prev : Option ℚ),
      (l.foldl (fun st e => compressStep st e.1 e.2)
        ⟨acc, cum, bin, prev⟩).compact
        = acc ++ compressSpecWalk l cum bin prev := by
  intro l
  induction l with
  | nil =>
    intro acc cum bin prev
    simp [compressSpecWalk]
  | cons e t ih =>
    intro acc cum bin prev
    rcases e with ⟨fr, sz⟩
    rw [List.foldl_cons]
    rcases prev with _ | p
    · by_cases hpost : bin < (cum : ℚ) + (sz : ℚ)
      · have hstep : compressStep ⟨acc, cum, bin, none⟩ fr sz
            = ⟨acc ++ [(fr, cum + sz)], 0, bin * (11 / 10), some fr⟩ := by
          simp [compressStep, hpost]
        rw [hstep, ih]
        simp [compressSpecWalk, hpost]
      · have hstep : compressStep ⟨acc, cum, bin, none⟩ fr sz
            = ⟨acc, cum + sz, bin, some fr⟩ := by
          simp [compressStep, hpost]
        rw [hstep, ih]
        simp [compressSpecWalk, hpost]
    · by_cases hA : 2 * bin < (sz : ℚ)
      · by_cases hB : 0 < cum
        · by_cases hpost : bin * (11 / 10) < (sz : ℚ)
          · have hstep : compressStep ⟨acc, cum, bin, some p⟩ fr sz
                = ⟨(acc ++ [(p, cum)]) ++ [(fr, sz)], 0,
                   bin * (11 / 10) * (11 / 10), some fr⟩ := by
              simp [compressStep, hA, hB, hpost]
            rw [hstep, ih]
            simp [compressSpecWalk, hA, hB, hpost]
          · have hstep : compressStep ⟨acc, cum, bin, some p⟩ fr sz
                = ⟨acc ++ [(p, cum)], sz, bin * (11 / 10), some fr⟩ := by
              simp [compressStep, hA, hB, hpost]
            rw [hstep, ih]
            simp [compressSpecWalk, hA, hB, hpost]
        · by_cases hpost : bin < (cum : ℚ) + (sz : ℚ)
          · have hstep : compressStep ⟨acc, cum, bin, some p⟩ fr sz
                = ⟨acc ++ [(fr, cum + sz)], 0, bin * (11 / 10), some fr⟩ := by
              simp [compressStep, hB, hpost]
            rw [hstep, ih]
            simp [compressSpecWalk, hB, hpost]
          · have hstep : compressStep ⟨acc, cum, bin, some p⟩ fr sz
                = ⟨acc, cum + sz, bin, some fr⟩ := by
              simp [compressStep, hB, hpost]
            rw [hstep, ih]
            simp [compressSpecWalk, hB, hpost]
      · by_cases hpost : bin < (cum : ℚ) + (sz : ℚ)
        · have hstep : compressStep ⟨acc, cum, bin, some p⟩ fr sz
              = ⟨acc ++ [(fr, cum + sz)], 0, bin * (11 / 10), some fr⟩ := by
            simp [compressStep, hA, hpost]
          rw [hstep, ih]
          simp [compressSpecWalk, hA, hpost]
        · have hstep : compressStep ⟨acc, cum, bin, some p⟩ fr sz
              = ⟨acc, cum + sz, bin, some fr⟩ := by
            simp [compressStep, hA, hpost]
          rw [hstep, ih]
          simp [compressSpecWalk, hA, hpost]

theorem sortDescInsert_perm (e : ℚ × Nat) (l : List (ℚ × Nat)) :
    (sortDescInsert e l).Perm (e :: l) := by
  induction l with
  | nil => exact List.Perm.refl _
  | cons f t ih =>
    unfold sortDescInsert
    by_cases h : f.1 < e.1
    · rw [if_pos h]
    · rw [if_neg h]
      exact (ih.cons f).trans (List.Perm.swap e f t)

theorem sortDesc_perm (l : List (ℚ × Nat)) : (sortDesc l).Perm l := by
  induction l with
  | nil => exact List.Perm.refl _
  | cons e t ih =>
    exact (sortDescInsert_perm e (sortDesc t)).trans (ih.cons e)

theorem sortDescInsert_pairwise (e : ℚ × Nat) (l : List (ℚ × Nat))
    (hl : l.Pairwise fun a b => b.1 ≤ a.1) :
    (sortDescInsert e l).Pairwise fun a b => b.1 ≤ a.1 := by
  induction l with
  | nil => simp [sortDescInsert]
  | cons f t ih =>
    rcases List.pairwise_cons.1 hl with ⟨hf, ht⟩
    unfold sortDescInsert
    by_cases h : f.1 < e.1
    · rw [if_pos h]
      refine List.pairwise_cons.2 ⟨?_, hl⟩
      intro x hx
      rcases List.mem_cons.1 hx with h' | h'
      · rw [h']
        exact le_of_lt h
      · exact le_trans (hf x h') (le_of_lt h)
    · rw [if_neg h]
      refine List.pairwise_cons.2 ⟨?_, ih ht⟩
      intro x hx
      rcases List.mem_cons.1 ((sortDescInsert_perm e t).mem_iff.1 hx) with hx1 | hx1
      · rw [hx1]
        exact not_lt.1 h
      · exact hf x hx1

theorem sortDesc_pairwise (l : List (ℚ × Nat)) :
    (sortDesc l).Pairwise fun a b => b.1 ≤ a.1 := by
  induction l with
  | nil => simp [sortDesc]
  | cons e t ih => exact sortDescInsert_pairwise e (sortDesc t) ih

theorem sortDesc_pairwise_strict (l : List (ℚ × Nat))
    (hnd : (l.map Prod.fst).Nodup) :
    (sortDesc l).Pairwise fun a b => b.1 < a.1 := by
  have hperm : ((sortDesc l).map Prod.fst).Perm (l.map Prod.fst) :=
    (sortDesc_perm l).map Prod.fst
  have hnd' : ((sortDesc l).map Prod.fst).Nodup := hperm.nodup_iff.2 hnd
  have hne : (sortDesc l).Pairwise fun a b => a.1 ≠ b.1 :=
    (List.pairwise_map.1 hnd')
  have hle := sortDesc_pairwise l
  exact (hle.and hne).imp fun h => lt_of_le_of_ne h.1 (Ne.symm h.2)

/-- claim C5: `_compress_histogram` walks the histogram entries in
strictly descending fee rate and, per entry, performs the pre-flush
(emit previous bucket when `size > 2*bin_size`, a previous fee rate
exists and `cum_size > 0`, then reset and grow `bin_size` by 1.1),
accumulates the entry size, then the post-flush (emit when
`cum_size > bin_size`, reset, grow by 1.1); any trailing `cum_size > 0`
left after the loop is not emitted. -/
theorem C5_compress_histogram (histogram : List (ℚ × Nat)) (bin_size : ℚ)
    (_hbin : 0 < bin_size) (hnd : (histogram.map Prod.fst).Nodup) :
    compressHistogram histogram bin_size
        = compressSpecWalk (sortDesc histogram) 0 bin_size none
      ∧ (sortDesc histogram).Pairwise fun a b => b.1 < a.1 := by
  refine ⟨?_, sortDesc_pairwise_strict _ hnd⟩
  unfold compressHistogram
  simpa using compressStep_foldl_eq_walk (sortDesc histogram) [] 0 bin_size none

/-- Witness for C5 at the spec's concrete scenario (one tx of 250
bytes at fee rate 4.0, bin size 100). -/
theorem C5_compress_histogram_witness :
    ((0 : ℚ) < 100 ∧ ([((4 : ℚ), 250)].map Prod.fst).Nodup)
      ∧ (compressHistogram [((4 : ℚ), 250)] 100
          = compressSpecWalk (sortDesc [((4 : ℚ), 250)]) 0 100 none
        ∧ (sortDesc [((4 : ℚ), 250)]).Pairwise fun a b => b.1 < a.1) :=
  ⟨⟨by norm_num, by simp⟩,
   C5_compress_histogram [((4 : ℚ), 250)] 100 (by norm_num) (by simp)⟩

/-- claim C1 (amended): when step 3 of the asset-output parser raises,
the `except` handler appends exactly one degraded pair
`(scripthash, v, is_asset=false, no name)` and no AssetIssuance is
recorded for the output; but `v` is the parser's current `value`
variable (the payload value once the 8-byte read has succeeded, the
original output value before that), and if the failure happens in the
`r`/`q` metadata reads the asset pair appended at line 459 precedes
the degraded pair, so the output can carry two pairs. -/
theorem C1_parse_failure_amended (tx_hash vout_n hashX value0 : Nat)
    (s : Option (List Nat))
    (hf : (parseAssetScript tx_hash vout_n hashX value0 s).failed = true) :
    (parseAssetScript tx_hash vout_n hashX value0 s).create = none
      ∧ (parseAssetScript tx_hash vout_n hashX value0 s).reissue = none
      ∧ ((∃ v, (parseAssetScript tx_hash vout_n hashX value0 s).pairs
            = [degradedPair hashX v])
        ∨ ∃ nm v, (parseAssetScript tx_hash vout_n hashX value0 s).pairs
            = [⟨hashX, v, true, some nm⟩, degradedPair hashX v]) := by
  have key : ∀ r : AssetParseResult,
      parseAssetScript tx_hash vout_n hashX value0 s = r → r.failed = true →
      r.create = none ∧ r.reissue = none ∧
        ((∃ v, r.pairs = [degradedPair hashX v])
          ∨ ∃ nm v, r.pairs = [⟨hashX, v, true, some nm⟩, degradedPair hashX v]) := by
    intro r hr
    unfold parseAssetScript at hr
    dsimp only at hr
    repeat' split at hr
    all_goals subst hr
    all_goals intro hfail
    all_goals first
      | exact ⟨rfl, rfl, Or.inl ⟨_, rfl⟩⟩
      | exact ⟨rfl, rfl, Or.inr ⟨_, _, rfl⟩⟩
      | simp at hfail
  exact key _ rfl hf

/-- Witness for C1 (amended) at a 3-byte-header underflow. -/
theorem C1_parse_failure_amended_witness :
    (parseAssetScript 1 0 1 5 (some [])).failed = true
      ∧ ((parseAssetScript 1 0 1 5 (some [])).create = none
        ∧ (parseAssetScript 1 0 1 5 (some [])).reissue = none
        ∧ ((∃ v, (parseAssetScript 1 0 1 5 (some [])).pairs
              = [degradedPair 1 v])
          ∨ ∃ nm v, (parseAssetScript 1 0 1 5 (some [])).pairs
              = [⟨1, v, true, some nm⟩, degradedPair 1 v])) :=
  ⟨by decide, C1_parse_failure_amended 1 0 1 5 (some []) (by decide)⟩

/-- Counterexample to C1 as stated: a `q`-type payload whose 8-byte
value read succeeds (value 7) before the ASCII decode of the
non-ASCII name fails.  The single degraded pair carries the payload
value 7, not the output's original native value 5. -/
theorem C1_parse_failure_counterexample :
    (parseAssetScript 1 0 1 5
        (some [0, 0, 0, 113, 1, 200, 7, 0, 0, 0, 0, 0, 0, 0])).failed = true
      ∧ (parseAssetScript 1 0 1 5
          (some [0, 0, 0, 113, 1, 200, 7, 0, 0, 0, 0, 0, 0, 0])).pairs
          = [degradedPair 1 7]
      ∧ [degradedPair 1 7] ≠ [degradedPair 1 5] := by
  refine ⟨by decide, by decide, by decide⟩

def c2tx : MemPoolTx := ⟨[(9, 0)], none, [], 0, 100⟩

/-- claim C2: the prevout resolver is supposed to map each external
prevout to its own resolved tuple, with asset-resolved prevouts
appearing as `(scripthash, value, true, name)`.  Evaluating the
embedded lines 540-552 on one external prevout whose utxo lookup
returns `(11, 5)` and whose asset lookup returns `(12, 7, "A")`:
`zip` pairs the prevouts only with the utxo-lookup tuples, so the
asset tuple is discarded and the prevout maps to the utxo tuple. -/
theorem C2_utxo_map_drops_assets :
    buildUtxoMap (fetchPrevouts [(1, c2tx)] {1}) [(11, 5)] [(12, 7, "A")]
        = [((9, 0), ⟨11, 5, false, none⟩)]
      ∧ pyDictGet
          (buildUtxoMap (fetchPrevouts [(1, c2tx)] {1}) [(11, 5)] [(12, 7, "A")])
          (9, 0)
          ≠ some ⟨12, 7, true, some "A"⟩ := by
  refine ⟨by decide, by decide⟩

theorem acceptStep_fee_lookup (tc tr : Mp Nat (Finset String))
    (u : List (Prevout × OutPair)) (st : AccState) (e : Nat × MemPoolTx)
    (h : Nat) (tx' : MemPoolTx)
    (hl : mpLookup (acceptStep tc tr u st e).txs h = some tx') :
    mpLookup st.txs h = some tx'
      ∨ (tx'.fee = max 0 (nativeSum (tx'.in_pairs.getD [])
            - nativeSum tx'.out_pairs)
        ∧ 0 ≤ tx'.fee) := by
  unfold acceptStep at hl
  by_cases hc : st.crashed
  · rw [if_pos hc] at hl
    exact Or.inl hl
  · rw [if_neg hc] at hl
    rcases hr : resolvePrevouts u st.txs e.2.prevouts with pairs | _ | _
    all_goals rw [hr] at hl
    all_goals dsimp only at hl
    · rw [mpLookup_mpInsert] at hl
      by_cases he : e.1 = h
      · rw [if_pos he] at hl
        refine Or.inr ?_
        rw [← Option.some.inj hl]
        exact ⟨rfl, le_max_left 0 _⟩
      · rw [if_neg he] at hl
        exact Or.inl hl
    · exact Or.inl hl
    · exact Or.inl hl

theorem foldl_acceptStep_fee_lookup (tc tr : Mp Nat (Finset String))
    (u : List (Prevout × OutPair)) (l : List (Nat × MemPoolTx)) :
    ∀ (st : AccState) (h : Nat) (tx' : MemPoolTx),
      mpLookup ((l.foldl (acceptStep tc tr u) st)).txs h = some tx' →
      mpLookup st.txs h = some tx'
        ∨ (tx'.fee = max 0 (nativeSum (tx'.in_pairs.getD [])
              - nativeSum tx'.out_pairs)
          ∧ 0 ≤ tx'.fee) := by
  induction l with
  | nil =>
    intro st h tx' hl
    exact Or.inl hl
  | cons e t ih =>
    intro st h tx' hl
    rcases ih (acceptStep tc tr u st e) h tx' hl with h1 | h1
    · exact acceptStep_fee_lookup tc tr u st e h tx' h1
    · exact Or.inr h1

/-- claim C4: every transaction committed by `_accept_transactions`
stores `fee = max(0, Σ native in_pairs − Σ native out_pairs)` (asset
pairs contribute zero to both sums), hence a non-negative fee. -/
theorem C4_fee_of_accepted (tc tr : Mp Nat (Finset String))
    (txs : Mp Nat MemPoolTx) (hashXs : Mp Nat (Finset Nat))
    (tx_map : List (Nat × MemPoolTx)) (utxo_map : List (Prevout × OutPair))
    (touched : Finset Nat) (assets : Finset String) (h : Nat) (tx' : MemPoolTx)
    (hnew : mpLookup txs h = none)
    (hl : mpLookup
        (acceptTransactions tc tr txs hashXs tx_map utxo_map touched assets).1.txs
        h = some tx') :
    tx'.fee = max 0 (nativeSum (tx'.in_pairs.getD []) - nativeSum tx'.out_pairs)
      ∧ 0 ≤ tx'.fee := by
  rcases foldl_acceptStep_fee_lookup tc tr utxo_map tx_map
      ⟨txs, hashXs, [], (utxo_map.map Prod.fst).toFinset, touched, assets, false⟩
      h tx' hl with h1 | h1
  · rw [hnew] at h1
    exact absurd h1 (by simp)
  · exact h1

/-- Witness for C4: one generation-like tx (no prevouts) paying 4
sats to scripthash 2 is accepted with fee clamped to 0. -/
theorem C4_fee_of_accepted_witness :
    (mpLookup (mpEmpty : Mp Nat MemPoolTx) 1 = none
      ∧ mpLookup (acceptTransactions mpEmpty mpEmpty mpEmpty mpEmpty
          [(1, ⟨[], none, [⟨2, 4, false, none⟩], 0, 10⟩)] [] ∅ ∅).1.txs 1
        = some ⟨[], some [], [⟨2, 4, false, none⟩], 0, 10⟩)
      ∧ ((⟨[], some [], [⟨2, 4, false, none⟩], 0, 10⟩ : MemPoolTx).fee
          = max 0 (nativeSum ((⟨[], some [], [⟨2, 4, false, none⟩], 0, 10⟩
              : MemPoolTx).in_pairs.getD [])
            - nativeSum (⟨[], some [], [⟨2, 4, false, none⟩], 0, 10⟩
              : MemPoolTx).out_pairs)
        ∧ 0 ≤ (⟨[], some [], [⟨2, 4, false, none⟩], 0, 10⟩ : MemPoolTx).fee) :=
  ⟨⟨by decide, by decide⟩,
   C4_fee_of_accepted mpEmpty mpEmpty mpEmpty mpEmpty
     [(1, ⟨[], none, [⟨2, 4, false, none⟩], 0, 10⟩)] [] ∅ ∅ 1
     ⟨[], some [], [⟨2, 4, false, none⟩], 0, 10⟩ (by decide) (by decide)⟩

theorem resolvePrevouts_keyErr_mem (u : List (Prevout × OutPair))
    (txs : Mp Nat MemPoolTx) :
    ∀ pvs : List Prevout, resolvePrevouts u txs pvs = .keyErr →
      ∃ pv ∈ pvs, pyDictGet u pv = none ∧ mpLookup txs pv.1 = none := by
  intro pvs
  induction pvs with
  | nil =>
    intro h
    simp [resolvePrevouts] at h
  | cons pv rest ih =>
    intro h
    unfold resolvePrevouts at h
    rcases hget : pyDictGet u pv with _ | u0
    · simp only [hget] at h
      rcases hmp : mpLookup txs pv.1 with _ | ptx
      · exact ⟨pv, by simp, hget, hmp⟩
      · simp only [hmp] at h
        rcases hidx : ptx.out_pairs[pv.2]? with _ | u1
        · simp only [hidx] at h
          exact ResolveOut.noConfusion h
        · simp only [hidx] at h
          rcases hrec : resolvePrevouts u txs rest with pairs | _ | _
          · simp only [hrec] at h
            exact ResolveOut.noConfusion h
          · rcases ih hrec with ⟨pv2, hpv2, hg, hl2⟩
            exact ⟨pv2, List.mem_cons_of_mem _ hpv2, hg, hl2⟩
          · simp only [hrec] at h
            exact ResolveOut.noConfusion h
    · simp only [hget] at h
      rcases hrec : resolvePrevouts u txs rest with pairs | _ | _
      · simp only [hrec] at h
        exact ResolveOut.noConfusion h
      · rcases ih hrec with ⟨pv2, hpv2, hg, hl2⟩
        exact ⟨pv2, List.mem_cons_of_mem _ hpv2, hg, hl2⟩
      · simp only [hrec] at h
        exact ResolveOut.noConfusion h

/-- claim C10 (amended): a pending transaction is deferred with no
side effect exactly when its resolution raises KeyError, i.e. the
first failing prevout is found neither in `utxo_map` nor among the
keys of `txs`; its record, `txs`, `hashXs`, `touched`,
`assets_touched` and the unspent set are all unchanged.  (As stated
the claim also covers a prevout whose parent IS in `txs` but whose
output index is out of range; there the uncaught IndexError aborts
the pass instead of deferring — see the counterexample.) -/
theorem C10_deferral_amended (tc tr : Mp Nat (Finset String))
    (u : List (Prevout × OutPair)) (st : AccState) (e : Nat × MemPoolTx)
    (hc : st.crashed = false)
    (hk : resolvePrevouts u st.txs e.2.prevouts = .keyErr) :
    acceptStep tc tr u st e = {st with deferred := st.deferred ++ [e]}
      ∧ ∃ pv ∈ e.2.prevouts, pyDictGet u pv = none
          ∧ mpLookup st.txs pv.1 = none := by
  constructor
  · unfold acceptStep
    rw [if_neg (by simp [hc]), hk]
  · exact resolvePrevouts_keyErr_mem u st.txs e.2.prevouts hk

/-- Witness for C10 (amended): a tx with one prevout whose parent
hash 42 is unknown is deferred unchanged. -/
theorem C10_deferral_amended_witness :
    ((⟨mpEmpty, mpEmpty, [], ∅, ∅, ∅, false⟩ : AccState).crashed = false
      ∧ resolvePrevouts [] (⟨mpEmpty, mpEmpty, [], ∅, ∅, ∅, false⟩
          : AccState).txs (⟨[(42, 0)], none, [], 0, 60⟩ : MemPoolTx).prevouts
        = .keyErr)
      ∧ (acceptStep mpEmpty mpEmpty [] ⟨mpEmpty, mpEmpty, [], ∅, ∅, ∅, false⟩
          (7, ⟨[(42, 0)], none, [], 0, 60⟩)
          = {(⟨mpEmpty, mpEmpty, [], ∅, ∅, ∅, false⟩ : AccState) with
              deferred := [] ++ [(7, ⟨[(42, 0)], none, [], 0, 60⟩)]}
        ∧ ∃ pv ∈ (⟨[(42, 0)], none, [], 0, 60⟩ : MemPoolTx).prevouts,
            pyDictGet ([] : List (Prevout × OutPair)) pv = none
              ∧ mpLookup (mpEmpty : Mp Nat MemPoolTx) pv.1 = none) :=
  ⟨⟨rfl, by decide⟩,
   C10_deferral_amended mpEmpty mpEmpty [] ⟨mpEmpty, mpEmpty, [], ∅, ∅, ∅, false⟩
     (7, ⟨[(42, 0)], none, [], 0, 60⟩) rfl (by decide)⟩

def c10parent : MemPoolTx := ⟨[], none, [⟨3, 1, false, none⟩], 0, 50⟩

def c10child : MemPoolTx := ⟨[(5, 3)], none, [], 0, 60⟩

/-- Counterexample to C10 as stated: tx 7 spends output index 3 of
mempool tx 5, which has only one output.  The prevout resolves
neither through `utxo_map` nor through `out_pairs`, yet the tx is NOT
deferred: the IndexError (not caught by `except KeyError`) aborts the
pass with the `crashed` flag, and tx 7 ends up neither deferred nor
accepted. -/
theorem C10_deferral_counterexample :
    (acceptTransactions mpEmpty mpEmpty (mpInsert 5 c10parent mpEmpty) mpEmpty
        [(7, c10child)] [] ∅ ∅).1.deferred = []
      ∧ (acceptTransactions mpEmpty mpEmpty (mpInsert 5 c10parent mpEmpty) mpEmpty
          [(7, c10child)] [] ∅ ∅).1.crashed = true
      ∧ mpLookup (acceptTransactions mpEmpty mpEmpty (mpInsert 5 c10parent mpEmpty)
          mpEmpty [(7, c10child)] [] ∅ ∅).1.txs 7 = none := by
  refine ⟨by decide, by decide, by decide⟩

theorem acceptStep_shape (tc tr : Mp Nat (Finset String))
    (u : List (Prevout × OutPair)) (st : AccState) (e : Nat × MemPoolTx) :
    (st.crashed = true ∧ acceptStep tc tr u st e = st)
      ∨ acceptStep tc tr u st e = {st with deferred := st.deferred ++ [e]}
      ∨ acceptStep tc tr u st e = {st with crashed := true}
      ∨ ∃ (tx' : MemPoolTx) (hx2 : Mp Nat (Finset Nat)) (tou2 : Finset Nat)
          (ass2 : Finset String) (uns2 : Finset Prevout),
          acceptStep tc tr u st e
            = ⟨mpInsert e.1 tx' st.txs, hx2, st.deferred, uns2, tou2, ass2,
               st.crashed⟩ := by
  unfold acceptStep
  by_cases hc : st.crashed
  · rw [if_pos hc]
    exact Or.inl ⟨hc, rfl⟩
  · rw [if_neg hc]
    rcases resolvePrevouts u st.txs e.2.prevouts with pairs | _ | _
    · exact Or.inr (Or.inr (Or.inr ⟨_, _, _, _, _, rfl⟩))
    · exact Or.inr (Or.inl rfl)
    · exact Or.inr (Or.inr (Or.inl rfl))

theorem foldl_acceptStep_all_deferred (tc tr : Mp Nat (Finset String))
    (u : List (Prevout × OutPair)) :
    ∀ (l : List (Nat × MemPoolTx)) (st : AccState),
      ((l.foldl (acceptStep tc tr u) st).deferred).length
          = st.deferred.length + l.length →
      l.foldl (acceptStep tc tr u) st = {st with deferred := st.deferred ++ l} := by
  intro l
  induction l with
  | nil =>
    intro st h
    simp
  | cons e t ih =>
    intro st h
    rw [List.foldl_cons] at h ⊢
    rcases acceptStep_shape tc tr u st e with ⟨-, hs⟩ | hs | hs | ⟨tx', hx2, tou2, ass2, uns2, hs⟩
    all_goals rw [hs] at h ⊢
    · have hb := (foldl_acceptStep_deferred_sublist tc tr u t st).length_le
      simp only [List.length_append, List.length_cons] at h hb
      omega
    · have h2 : ((t.foldl (acceptStep tc tr u)
          {st with deferred := st.deferred ++ [e]}).deferred).length
            = ({st with deferred := st.deferred ++ [e]}
              : AccState).deferred.length + t.length := by
        simp at h ⊢
        omega
      rw [ih _ h2]
      simp
    · have hb := (foldl_acceptStep_deferred_sublist tc tr u t
        {st with crashed := true}).length_le
      simp only [List.length_append, List.length_cons] at h hb
      omega
    · have hb := (foldl_acceptStep_deferred_sublist tc tr u t
        (⟨mpInsert e.1 tx' st.txs, hx2, st.deferred, uns2, tou2, ass2,
          st.crashed⟩ : AccState)).length_le
      simp only [List.length_append, List.length_cons] at h hb
      omega

theorem acceptTransactions_all_deferred (tc tr : Mp Nat (Finset String))
    (txs : Mp Nat MemPoolTx) (hashXs : Mp Nat (Finset Nat))
    (tx_map : List (Nat × MemPoolTx)) (utxo_map : List (Prevout × OutPair))
    (touched : Finset Nat) (assets : Finset String)
    (h : ((acceptTransactions tc tr txs hashXs tx_map utxo_map touched
        assets).1.deferred).length = tx_map.length) :
    acceptTransactions tc tr txs hashXs tx_map utxo_map touched assets
      = (⟨txs, hashXs, tx_map, (utxo_map.map Prod.fst).toFinset, touched,
          assets, false⟩, utxo_map) := by
  have hfold := foldl_acceptStep_all_deferred tc tr utxo_map tx_map
    ⟨txs, hashXs, [], (utxo_map.map Prod.fst).toFinset, touched, assets, false⟩
    (by simpa [acceptTransactions] using h)
  unfold acceptTransactions
  rw [hfold]
  dsimp only
  simp only [List.nil_append]
  have h2 : List.filter
      (fun e => decide (e.1 ∈ (List.map Prod.fst utxo_map).toFinset)) utxo_map
        = utxo_map := by
    refine List.filter_eq_self.mpr ?_
    intro e he
    simp only [decide_eq_true_eq, List.mem_toFinset, List.mem_map]
    exact ⟨e, he, rfl⟩
  rw [h2]

theorem foldl_acceptStep_lookup_none (tc tr : Mp Nat (Finset String))
    (u : List (Prevout × OutPair)) :
    ∀ (l : List (Nat × MemPoolTx)) (st : AccState),
      ((st.deferred ++ l).map Prod.fst).Nodup →
      (∀ e ∈ st.deferred ++ l, mpLookup st.txs e.1 = none) →
      ∀ e ∈ (l.foldl (acceptStep tc tr u) st).deferred,
        mpLookup ((l.foldl (acceptStep tc tr u) st)).txs e.1 = none := by
  intro l
  induction l with
  | nil =>
    intro st hnd habs e he
    exact habs e (by simpa using he)
  | cons e0 t ih =>
    intro st hnd habs
    rw [List.foldl_cons]
    rcases acceptStep_shape tc tr u st e0 with ⟨-, hs⟩ | hs | hs |
      ⟨tx', hx2, tou2, ass2, uns2, hs⟩
    all_goals rw [hs]
    · refine ih st ?_ ?_
      · refine List.Nodup.sublist ?_ hnd
        exact (List.append_sublist_append_left _).2
          (List.sublist_cons_self e0 t) |>.map Prod.fst
      · intro x hx
        refine habs x ?_
        rcases List.mem_append.1 hx with h | h
        · exact List.mem_append.2 (Or.inl h)
        · exact List.mem_append.2 (Or.inr (List.mem_cons_of_mem _ h))
    · have harr : (({st with deferred := st.deferred ++ [e0]}
          : AccState).deferred ++ t) = st.deferred ++ e0 :: t := by
        simp
      refine ih {st with deferred := st.deferred ++ [e0]} ?_ ?_
      · rw [harr]
        exact hnd
      · rw [harr]
        exact habs
    · refine ih {st with crashed := true} ?_ ?_
      · refine List.Nodup.sublist ?_ hnd
        exact (List.append_sublist_append_left _).2
          (List.sublist_cons_self e0 t) |>.map Prod.fst
      · intro x hx
        refine habs x ?_
        rcases List.mem_append.1 hx with h | h
        · exact List.mem_append.2 (Or.inl h)
        · exact List.mem_append.2 (Or.inr (List.mem_cons_of_mem _ h))
    · have hkey : e0.1 ∉ (st.deferred ++ t).map Prod.fst := by
        have hperm : ((st.deferred ++ e0 :: t).map Prod.fst).Perm
            (e0.1 :: (st.deferred ++ t).map Prod.fst) :=
          List.perm_middle.map Prod.fst
        have := (hperm.nodup_iff).1 hnd
        exact (List.nodup_cons.1 this).1
      refine ih ⟨mpInsert e0.1 tx' st.txs, hx2, st.deferred, uns2, tou2, ass2,
          st.crashed⟩ ?_ ?_
      · refine List.Nodup.sublist ?_ hnd
        exact (List.append_sublist_append_left _).2
          (List.sublist_cons_self e0 t) |>.map Prod.fst
      · intro x hx
        show mpLookup (mpInsert e0.1 tx' st.txs) x.1 = none
        rw [mpLookup_mpInsert]
        have hxne : ¬e0.1 = x.1 := by
          intro hq
          refine hkey ?_
          rw [hq]
          exact List.mem_map_of_mem Prod.fst hx
        rw [if_neg hxne]
        refine habs x ?_
        rcases List.mem_append.1 hx with h | h
        · exact List.mem_append.2 (Or.inl h)
        · exact List.mem_append.2 (Or.inr (List.mem_cons_of_mem _ h))

theorem acceptLoop_cases (tc tr : Mp Nat (Finset String)) :
    ∀ (n : Nat) (txs : Mp Nat MemPoolTx) (hashXs : Mp Nat (Finset Nat))
      (touched : Finset Nat) (assets : Finset String)
      (tx_map : List (Nat × MemPoolTx)) (utxo_map : List (Prevout × OutPair))
      (prior : Nat),
      tx_map.length + (if tx_map.length = prior then 0 else 1) ≤ n →
      ∃ r : LoopResult,
        acceptLoop n tc tr txs hashXs touched assets tx_map utxo_map prior = r
        ∧ (r.crashed = true ∨ r.tx_map = []
          ∨ (acceptTransactions tc tr r.txs r.hashXs r.tx_map r.utxo_map
              r.touched r.assets_touched).1.deferred = r.tx_map
          ∨ (r = ⟨txs, hashXs, tx_map, utxo_map, touched, assets, false⟩
            ∧ tx_map.length = prior ∧ tx_map ≠ [])) := by
  intro n
  induction n with
  | zero =>
    intro txs hashXs touched assets tx_map utxo_map prior hm
    have h0 : tx_map = [] := by
      cases tx_map with
      | nil => rfl
      | cons a b =>
        exfalso
        by_cases hp : (a :: b).length = prior
        · rw [if_pos hp] at hm
          simp only [List.length_cons] at hm
          omega
        · rw [if_neg hp] at hm
          simp only [List.length_cons] at hm
          omega
    subst h0
    exact ⟨_, rfl, Or.inr (Or.inl rfl)⟩
  | succ n ihn =>
    intro txs hashXs touched assets tx_map utxo_map prior hm
    by_cases hg : tx_map ≠ [] ∧ tx_map.length ≠ prior
    · by_cases hc : (acceptTransactions tc tr txs hashXs tx_map utxo_map
          touched assets).1.crashed = true
      · have hr : acceptLoop (n + 1) tc tr txs hashXs touched assets tx_map
            utxo_map prior
            = ⟨(acceptTransactions tc tr txs hashXs tx_map utxo_map touched assets).1.txs,
               (acceptTransactions tc tr txs hashXs tx_map utxo_map touched assets).1.hashXs,
               (acceptTransactions tc tr txs hashXs tx_map utxo_map touched assets).1.deferred,
               (acceptTransactions tc tr txs hashXs tx_map utxo_map touched assets).2,
               (acceptTransactions tc tr txs hashXs tx_map utxo_map touched assets).1.touched,
               (acceptTransactions tc tr txs hashXs tx_map utxo_map touched assets).1.assets_touched,
               true⟩ := by
          rw [acceptLoop, if_pos hg, if_pos hc]
        exact ⟨_, rfl, Or.inl (by rw [hr])⟩
      · have hr : acceptLoop (n + 1) tc tr txs hashXs touched assets tx_map
            utxo_map prior
            = acceptLoop n tc tr
              (acceptTransactions tc tr txs hashXs tx_map utxo_map touched assets).1.txs
              (acceptTransactions tc tr txs hashXs tx_map utxo_map touched assets).1.hashXs
              (acceptTransactions tc tr txs hashXs tx_map utxo_map touched assets).1.touched
              (acceptTransactions tc tr txs hashXs tx_map utxo_map touched assets).1.assets_touched
              (acceptTransactions tc tr txs hashXs tx_map utxo_map touched assets).1.deferred
              (acceptTransactions tc tr txs hashXs tx_map utxo_map touched assets).2
              tx_map.length := by
          rw [acceptLoop, if_pos hg, if_neg hc]
        have hle := acceptTransactions_deferred_length_le tc tr txs hashXs
          tx_map utxo_map touched assets
        have hm2 : (acceptTransactions tc tr txs hashXs tx_map utxo_map touched
            assets).1.deferred.length
            + (if (acceptTransactions tc tr txs hashXs tx_map utxo_map touched
                assets).1.deferred.length = tx_map.length then 0 else 1) ≤ n := by
          rcases hg with ⟨-, hne⟩
          rw [if_neg hne] at hm
          by_cases hd : (acceptTransactions tc tr txs hashXs tx_map utxo_map
              touched assets).1.deferred.length = tx_map.length
          · rw [if_pos hd, hd]
            omega
          · rw [if_neg hd]
            omega
        rcases ihn _ _ _ _ _ _ _ hm2 with ⟨r, hreq, hdisj⟩
        refine ⟨r, by rw [hr, hreq], ?_⟩
        rcases hdisj with h1 | h1 | h1 | ⟨h1, h2, h3⟩
        · exact Or.inl h1
        · exact Or.inr (Or.inl h1)
        · exact Or.inr (Or.inr (Or.inl h1))
        · have hall := acceptTransactions_all_deferred tc tr txs hashXs tx_map
            utxo_map touched assets h2
          refine Or.inr (Or.inr (Or.inl ?_))
          rw [h1]
          dsimp only
          rw [hall]
          dsimp only
          rw [hall]
    · have hr : acceptLoop (n + 1) tc tr txs hashXs touched assets tx_map
          utxo_map prior
          = ⟨txs, hashXs, tx_map, utxo_map, touched, assets, false⟩ := by
        rw [acceptLoop, if_neg hg]
      by_cases hnil : tx_map = []
      · exact ⟨_, rfl, Or.inr (Or.inl (by rw [hr, hnil]))⟩
      · have hp : tx_map.length = prior := by
          by_cases hp2 : tx_map.length = prior
          · exact hp2
          · exact absurd ⟨hnil, hp2⟩ hg
        exact ⟨_, rfl, Or.inr (Or.inr (Or.inr ⟨by rw [hr], hp, hnil⟩))⟩

theorem acceptLoop_residue (tc tr : Mp Nat (Finset String)) :
    ∀ (n : Nat) (txs : Mp Nat MemPoolTx) (hashXs : Mp Nat (Finset Nat))
      (touched : Finset Nat) (assets : Finset String)
      (tx_map : List (Nat × MemPoolTx)) (utxo_map : List (Prevout × OutPair))
      (prior : Nat),
      (tx_map.map Prod.fst).Nodup →
      (∀ e ∈ tx_map, mpLookup txs e.1 = none) →
      ∀ e ∈ (acceptLoop n tc tr txs hashXs touched assets tx_map utxo_map
          prior).tx_map,
        mpLookup (acceptLoop n tc tr txs hashXs touched assets tx_map utxo_map
          prior).txs e.1 = none := by
  intro n
  induction n with
  | zero =>
    intro txs hashXs touched assets tx_map utxo_map prior hnd habs
    exact habs
  | succ n ihn =>
    intro txs hashXs touched assets tx_map utxo_map prior hnd habs
    by_cases hg : tx_map ≠ [] ∧ tx_map.length ≠ prior
    · have hfold : ∀ e ∈ (acceptTransactions tc tr txs hashXs tx_map utxo_map
          touched assets).1.deferred,
          mpLookup (acceptTransactions tc tr txs hashXs tx_map utxo_map touched
            assets).1.txs e.1 = none := by
        intro e he
        exact foldl_acceptStep_lookup_none tc tr utxo_map tx_map
          ⟨txs, hashXs, [], (utxo_map.map Prod.fst).toFinset, touched, assets,
            false⟩ (by simpa using hnd) (by simpa using habs) e he
      by_cases hc : (acceptTransactions tc tr txs hashXs tx_map utxo_map
          touched assets).1.crashed = true
      · have hr : acceptLoop (n + 1) tc tr txs hashXs touched assets tx_map
            utxo_map prior
            = ⟨(acceptTransactions tc tr txs hashXs tx_map utxo_map touched assets).1.txs,
               (acceptTransactions tc tr txs hashXs tx_map utxo_map touched assets).1.hashXs,
               (acceptTransactions tc tr txs hashXs tx_map utxo_map touched assets).1.deferred,
               (acceptTransactions tc tr txs hashXs tx_map utxo_map touched assets).2,
               (acceptTransactions tc tr txs hashXs tx_map utxo_map touched assets).1.touched,
               (acceptTransactions tc tr txs hashXs tx_map utxo_map touched assets).1.assets_touched,
               true⟩ := by
          rw [acceptLoop, if_pos hg, if_pos hc]
        rw [hr]
        exact hfold
      · have hr : acceptLoop (n + 1) tc tr txs hashXs touched assets tx_map
            utxo_map prior
            = acceptLoop n tc tr
              (acceptTransactions tc tr txs hashXs tx_map utxo_map touched assets).1.txs
              (acceptTransactions tc tr txs hashXs tx_map utxo_map touched assets).1.hashXs
              (acceptTransactions tc tr txs hashXs tx_map utxo_map touched assets).1.touched
              (acceptTransactions tc tr txs hashXs tx_map utxo_map touched assets).1.assets_touched
              (acceptTransactions tc tr txs hashXs tx_map utxo_map touched assets).1.deferred
              (acceptTransactions tc tr txs hashXs tx_map utxo_map touched assets).2
              tx_map.length := by
          rw [acceptLoop, if_pos hg, if_neg hc]
        rw [hr]
        have hsub := acceptTransactions_deferred_sublist tc tr txs hashXs
          tx_map utxo_map touched assets
        exact ihn _ _ _ _ _ _ _ (List.Nodup.sublist (hsub.map Prod.fst) hnd)
          hfold
    · have hr : acceptLoop (n + 1) tc tr txs hashXs touched assets tx_map
          utxo_map prior
          = ⟨txs, hashXs, tx_map, utxo_map, touched, assets, false⟩ := by
        rw [acceptLoop, if_neg hg]
      rw [hr]
      exact habs

/-- claim C6: the acceptance fixed-point loop terminates: with fuel
`tx_map.length + 1` it reaches its final state, each
`_accept_transactions` pass leaves the number of pending deferred
transactions the same or smaller, the loop halts as soon as a pass
accepts nothing (its result is a genuine fixed point: re-running the
pass defers its whole residue) or an uncaught IndexError aborts it,
and the final residue is dropped without ever being committed to
`txs`. -/
theorem C6_acceptance_loop (tc tr : Mp Nat (Finset String))
    (txs : Mp Nat MemPoolTx) (hashXs : Mp Nat (Finset Nat))
    (touched : Finset Nat) (assets : Finset String)
    (tx_map : List (Nat × MemPoolTx)) (utxo_map : List (Prevout × OutPair))
    (hnd : (tx_map.map Prod.fst).Nodup)
    (habs : ∀ e ∈ tx_map, mpLookup txs e.1 = none) :
    (∀ (txs2 : Mp Nat MemPoolTx) (hashXs2 : Mp Nat (Finset Nat))
        (tx_map2 : List (Nat × MemPoolTx))
        (utxo_map2 : List (Prevout × OutPair))
        (touched2 : Finset Nat) (assets2 : Finset String),
        ((acceptTransactions tc tr txs2 hashXs2 tx_map2 utxo_map2 touched2
          assets2).1.deferred).length ≤ tx_map2.length)
      ∧ ((acceptLoop (tx_map.length + 1) tc tr txs hashXs touched assets
            tx_map utxo_map 0).crashed = true
        ∨ (acceptLoop (tx_map.length + 1) tc tr txs hashXs touched assets
            tx_map utxo_map 0).tx_map = []
        ∨ (acceptTransactions tc tr
            (acceptLoop (tx_map.length + 1) tc tr txs hashXs touched assets
              tx_map utxo_map 0).txs
            (acceptLoop (tx_map.length + 1) tc tr txs hashXs touched assets
              tx_map utxo_map 0).hashXs
            (acceptLoop (tx_map.length + 1) tc tr txs hashXs touched assets
              tx_map utxo_map 0).tx_map
            (acceptLoop (tx_map.length + 1) tc tr txs hashXs touched assets
              tx_map utxo_map 0).utxo_map
            (acceptLoop (tx_map.length + 1) tc tr txs hashXs touched assets
              tx_map utxo_map 0).touched
            (acceptLoop (tx_map.length + 1) tc tr txs hashXs touched assets
              tx_map utxo_map 0).assets_touched).1.deferred
            = (acceptLoop (tx_map.length + 1) tc tr txs hashXs touched assets
              tx_map utxo_map 0).tx_map)
      ∧ ∀ e ∈ (acceptLoop (tx_map.length + 1) tc tr txs hashXs touched assets
          tx_map utxo_map 0).tx_map,
          mpLookup (acceptLoop (tx_map.length + 1) tc tr txs hashXs touched
            assets tx_map utxo_map 0).txs e.1 = none := by
  refine ⟨fun txs2 hashXs2 tx_map2 utxo_map2 touched2 assets2 =>
    acceptTransactions_deferred_length_le tc tr txs2 hashXs2 tx_map2 utxo_map2
      touched2 assets2, ?_, ?_⟩
  · rcases acceptLoop_cases tc tr (tx_map.length + 1) txs hashXs touched assets
        tx_map utxo_map 0 (by split <;> omega) with ⟨r, hreq, hdisj⟩
    rw [hreq]
    rcases hdisj with h | h | h | ⟨h1, h2, h3⟩
    · exact Or.inl h
    · exact Or.inr (Or.inl h)
    · exact Or.inr (Or.inr h)
    · exact absurd (List.eq_nil_of_length_eq_zero h2) h3
  · exact acceptLoop_residue tc tr (tx_map.length + 1) txs hashXs touched
      assets tx_map utxo_map 0 hnd habs

/-- Witness for C6 at a one-element batch. -/
theorem C6_acceptance_loop_witness :
    (([(1, (⟨[], none, [⟨2, 4, false, none⟩], 0, 10⟩ : MemPoolTx))].map
        Prod.fst).Nodup
      ∧ ∀ e ∈ [(1, (⟨[], none, [⟨2, 4, false, none⟩], 0, 10⟩ : MemPoolTx))],
          mpLookup (mpEmpty : Mp Nat MemPoolTx) e.1 = none)
      ∧ ((∀ (txs2 : Mp Nat MemPoolTx) (hashXs2 : Mp Nat (Finset Nat))
          (tx_map2 : List (Nat × MemPoolTx))
          (utxo_map2 : List (Prevout × OutPair))
          (touched2 : Finset Nat) (assets2 : Finset String),
          ((acceptTransactions mpEmpty mpEmpty txs2 hashXs2 tx_map2 utxo_map2
            touched2 assets2).1.deferred).length ≤ tx_map2.length)
        ∧ ((acceptLoop 2 mpEmpty mpEmpty mpEmpty mpEmpty ∅ ∅
              [(1, ⟨[], none, [⟨2, 4, false, none⟩], 0, 10⟩)] [] 0).crashed = true
          ∨ (acceptLoop 2 mpEmpty mpEmpty mpEmpty mpEmpty ∅ ∅
              [(1, ⟨[], none, [⟨2, 4, false, none⟩], 0, 10⟩)] [] 0).tx_map = []
          ∨ (acceptTransactions mpEmpty mpEmpty
              (acceptLoop 2 mpEmpty mpEmpty mpEmpty mpEmpty ∅ ∅
                [(1, ⟨[], none, [⟨2, 4, false, none⟩], 0, 10⟩)] [] 0).txs
              (acceptLoop 2 mpEmpty mpEmpty mpEmpty mpEmpty ∅ ∅
                [(1, ⟨[], none, [⟨2, 4, false, none⟩], 0, 10⟩)] [] 0).hashXs
              (acceptLoop 2 mpEmpty mpEmpty mpEmpty mpEmpty ∅ ∅
                [(1, ⟨[], none, [⟨2, 4, false, none⟩], 0, 10⟩)] [] 0).tx_map
              (acceptLoop 2 mpEmpty mpEmpty mpEmpty mpEmpty ∅ ∅
                [(1, ⟨[], none, [⟨2, 4, false, none⟩], 0, 10⟩)] [] 0).utxo_map
              (acceptLoop 2 mpEmpty mpEmpty mpEmpty mpEmpty ∅ ∅
                [(1, ⟨[], none, [⟨2, 4, false, none⟩], 0, 10⟩)] [] 0).touched
              (acceptLoop 2 mpEmpty mpEmpty mpEmpty mpEmpty ∅ ∅
                [(1, ⟨[], none, [⟨2, 4, false, none⟩], 0, 10⟩)] [] 0).assets_touched).1.deferred
              = (acceptLoop 2 mpEmpty mpEmpty mpEmpty mpEmpty ∅ ∅
                [(1, ⟨[], none, [⟨2, 4, false, none⟩], 0, 10⟩)] [] 0).tx_map)
        ∧ ∀ e ∈ (acceptLoop 2 mpEmpty mpEmpty mpEmpty mpEmpty ∅ ∅
            [(1, ⟨[], none, [⟨2, 4, false, none⟩], 0, 10⟩)] [] 0).tx_map,
            mpLookup (acceptLoop 2 mpEmpty mpEmpty mpEmpty mpEmpty ∅ ∅
              [(1, ⟨[], none, [⟨2, 4, false, none⟩], 0, 10⟩)] [] 0).txs e.1
              = none) :=
  ⟨⟨by decide, by decide⟩,
   C6_acceptance_loop mpEmpty mpEmpty mpEmpty mpEmpty ∅ ∅
     [(1, ⟨[], none, [⟨2, 4, false, none⟩], 0, 10⟩)] [] (by decide) (by decide)⟩

theorem processMempool_err_ne_dbSync (S : MState) (touched : Finset Nat)
    (assets : Finset String) (inp : PMIn)
    (hh : ¬inp.mempool_height ≠ inp.db_height) :
    (processMempool S touched assets inp).err ≠ some PMErr.dbSync := by
  unfold processMempool
  rw [if_neg hh]
  dsimp only
  repeat' split
  all_goals simp

/-- claim C8: `_process_mempool` raises `DBSyncError` exactly when the
cycle's mempool height differs from `db_height()`; the height check
precedes every mutation, so on the raise the six indices and the
accumulators are untouched; `_refresh_hashes` keeps the accumulators on
`DBSyncError` and resets them to empty only after a successful publish
through `on_mempool`. -/
theorem C8_db_sync_guard (S : MState) (touched : Finset Nat)
    (assets : Finset String) (inp : PMIn) :
    ((processMempool S touched assets inp).err = some PMErr.dbSync
        ↔ inp.mempool_height ≠ inp.db_height)
      ∧ (inp.mempool_height ≠ inp.db_height →
          processMempool S touched assets inp
            = ⟨S, touched, assets, some PMErr.dbSync⟩)
      ∧ (inp.mempool_height ≠ inp.db_height →
          refreshStep S touched assets inp
            = ⟨S, touched, assets, none, some PMErr.dbSync⟩)
      ∧ ((refreshStep S touched assets inp).err = none →
          (refreshStep S touched assets inp).touched = ∅
          ∧ (refreshStep S touched assets inp).assets_touched = ∅
          ∧ (refreshStep S touched assets inp).published
              = some ((processMempool S touched assets inp).touched,
                  inp.mempool_height,
                  (processMempool S touched assets inp).assets_touched))
      ∧ ((refreshStep S touched assets inp).err ≠ none →
          (refreshStep S touched assets inp).published = none
          ∧ (refreshStep S touched assets inp).touched
              = (processMempool S touched assets inp).touched
          ∧ (refreshStep S touched assets inp).assets_touched
              = (processMempool S touched assets inp).assets_touched) := by
  by_cases hh : inp.mempool_height ≠ inp.db_height
  · have hp : processMempool S touched assets inp
        = ⟨S, touched, assets, some PMErr.dbSync⟩ := by
      unfold processMempool
      rw [if_pos hh]
    have hrf : refreshStep S touched assets inp
        = ⟨S, touched, assets, none, some PMErr.dbSync⟩ := by
      unfold refreshStep
      rw [hp]
    refine ⟨⟨fun _ => hh, fun _ => by rw [hp]⟩, fun _ => hp, fun _ => hrf,
      ?_, ?_⟩
    · intro h0
      rw [hrf] at h0
      exact absurd h0 (by simp)
    · intro _
      rw [hrf, hp]
      exact ⟨rfl, rfl, rfl⟩
  · have hne := processMempool_err_ne_dbSync S touched assets inp hh
    refine ⟨⟨fun h => absurd h hne, fun h => absurd h hh⟩,
      fun h => absurd h hh, fun h => absurd h hh, ?_, ?_⟩
    · intro h0
      unfold refreshStep at h0 ⊢
      rcases herr : (processMempool S touched assets inp).err with _ | e
      · exact ⟨rfl, rfl, rfl⟩
      · cases e
        · exact absurd herr hne
        · rw [herr] at h0
          exact absurd h0 (by simp)
    · intro h0
      unfold refreshStep at h0 ⊢
      rcases herr : (processMempool S touched assets inp).err with _ | e
      · rw [herr] at h0
        exact absurd rfl h0
      · cases e
        · exact absurd herr hne
        · exact ⟨rfl, rfl, rfl⟩

/-- Witness for C8 at a height mismatch (7 vs 8) over the empty state. -/
theorem C8_db_sync_guard_witness :
    ((⟨∅, 7, 8, [], [], [], [], []⟩ : PMIn).mempool_height
        ≠ (⟨∅, 7, 8, [], [], [], [], []⟩ : PMIn).db_height)
      ∧ refreshStep ⟨mpEmpty, mpEmpty, mpEmpty, mpEmpty, mpEmpty, mpEmpty⟩
          {3} {"A"} ⟨∅, 7, 8, [], [], [], [], []⟩
          = ⟨⟨mpEmpty, mpEmpty, mpEmpty, mpEmpty, mpEmpty, mpEmpty⟩,
             {3}, {"A"}, none, some PMErr.dbSync⟩ :=
  ⟨by decide,
   (C8_db_sync_guard ⟨mpEmpty, mpEmpty, mpEmpty, mpEmpty, mpEmpty, mpEmpty⟩
     {3} {"A"} ⟨∅, 7, 8, [], [], [], [], []⟩).2.2.1 (by decide)⟩

theorem mpLookup_eraseAllAssets (names : List String) :
    ∀ (m : Mp String AssetIssuance) (n : String),
      mpLookup (eraseAllAssets names m) n
        = if n ∈ names then none else mpLookup m n := by
  induction names with
  | nil =>
    intro m n
    simp [eraseAllAssets]
  | cons a t ih =>
    intro m n
    show mpLookup (eraseAllAssets t (mpErase a m)) n = _
    rw [ih]
    by_cases h1 : n ∈ t
    · rw [if_pos h1, if_pos (List.mem_cons_of_mem _ h1)]
    · rw [if_neg h1, mpLookup_mpErase]
      by_cases h2 : a = n
      · rw [if_pos h2, if_pos (by rw [← h2]; exact List.mem_cons_self a t)]
      · rw [if_neg h2, if_neg (by
          intro hx
          rcases List.mem_cons.1 hx with hx1 | hx1
          · exact h2 hx1.symm
          · exact h1 hx1)]

theorem evictOne_preserves_none (S : MState) (touched : Finset Nat) (k : Nat) :
    (∀ j, mpLookup S.tx_to_asset_create j = none →
        mpLookup (evictOne S touched k).1.tx_to_asset_create j = none)
    ∧ (∀ j, mpLookup S.tx_to_asset_reissue j = none →
        mpLookup (evictOne S touched k).1.tx_to_asset_reissue j = none)
    ∧ (∀ n, mpLookup S.asset_creates n = none →
        mpLookup (evictOne S touched k).1.asset_creates n = none)
    ∧ (∀ n, mpLookup S.asset_reissues n = none →
        mpLookup (evictOne S touched k).1.asset_reissues n = none) := by
  unfold evictOne
  rcases hm : mpLookup S.txs k with _ | tx
  · exact ⟨fun j h => h, fun j h => h, fun n h => h, fun n h => h⟩
  · dsimp only
    refine ⟨?_, ?_, ?_, ?_⟩
    · intro j h
      rw [mpLookup_mpErase]
      by_cases hk : k = j
      · rw [if_pos hk]
      · rw [if_neg hk]
        exact h
    · intro j h
      rw [mpLookup_mpErase]
      by_cases hk : k = j
      · rw [if_pos hk]
      · rw [if_neg hk]
        exact h
    · intro n h
      rw [mpLookup_eraseAllAssets]
      by_cases hn : n ∈ ((mpLookup S.tx_to_asset_create k).getD ∅).sort (· ≤ ·)
      · rw [if_pos hn]
      · rw [if_neg hn]
        exact h
    · intro n h
      rw [mpLookup_eraseAllAssets]
      by_cases hn : n ∈ ((mpLookup S.tx_to_asset_reissue k).getD ∅).sort (· ≤ ·)
      · rw [if_pos hn]
      · rw [if_neg hn]
        exact h

theorem evictOne_other (S : MState) (touched : Finset Nat) (k j : Nat)
    (hne : k ≠ j) :
    mpLookup (evictOne S touched k).1.txs j = mpLookup S.txs j
    ∧ mpLookup (evictOne S touched k).1.tx_to_asset_create j
        = mpLookup S.tx_to_asset_create j
    ∧ mpLookup (evictOne S touched k).1.tx_to_asset_reissue j
        = mpLookup S.tx_to_asset_reissue j := by
  unfold evictOne
  rcases hm : mpLookup S.txs k with _ | tx
  · exact ⟨rfl, rfl, rfl⟩
  · dsimp only
    refine ⟨?_, ?_, ?_⟩
    all_goals rw [mpLookup_mpErase, if_neg hne]

theorem evictOne_cleans (S : MState) (touched : Finset Nat) (k : Nat)
    (tx : MemPoolTx) (hm : mpLookup S.txs k = some tx) :
    mpLookup (evictOne S touched k).1.tx_to_asset_create k = none
    ∧ mpLookup (evictOne S touched k).1.tx_to_asset_reissue k = none
    ∧ (∀ n ∈ (mpLookup S.tx_to_asset_create k).getD ∅,
        mpLookup (evictOne S touched k).1.asset_creates n = none)
    ∧ (∀ n ∈ (mpLookup S.tx_to_asset_reissue k).getD ∅,
        mpLookup (evictOne S touched k).1.asset_reissues n = none) := by
  unfold evictOne
  rw [hm]
  dsimp only
  refine ⟨?_, ?_, ?_, ?_⟩
  · rw [mpLookup_mpErase, if_pos rfl]
  · rw [mpLookup_mpErase, if_pos rfl]
  · intro n hn
    rw [mpLookup_eraseAllAssets,
      if_pos ((Finset.mem_sort (α := String) (· ≤ ·)).2 hn)]
  · intro n hn
    rw [mpLookup_eraseAllAssets,
      if_pos ((Finset.mem_sort (α := String) (· ≤ ·)).2 hn)]

theorem evictFold_preserves_none :
    ∀ (l : List Nat) (S : MState) (touched : Finset Nat),
      (∀ j, mpLookup S.tx_to_asset_create j = none →
        mpLookup (l.foldl (fun acc h => evictOne acc.1 acc.2 h)
          (S, touched)).1.tx_to_asset_create j = none)
      ∧ (∀ j, mpLookup S.tx_to_asset_reissue j = none →
        mpLookup (l.foldl (fun acc h => evictOne acc.1 acc.2 h)
          (S, touched)).1.tx_to_asset_reissue j = none)
      ∧ (∀ n, mpLookup S.asset_creates n = none →
        mpLookup (l.foldl (fun acc h => evictOne acc.1 acc.2 h)
          (S, touched)).1.asset_creates n = none)
      ∧ (∀ n, mpLookup S.asset_reissues n = none →
        mpLookup (l.foldl (fun acc h => evictOne acc.1 acc.2 h)
          (S, touched)).1.asset_reissues n = none) := by
  intro l
  induction l with
  | nil => exact fun S touched =>
      ⟨fun j h => h, fun j h => h, fun n h => h, fun n h => h⟩
  | cons k t ih =>
    intro S touched
    rw [List.foldl_cons]
    rcases evictOne_preserves_none S touched k with ⟨p1, p2, p3, p4⟩
    rcases ih (evictOne S touched k).1 (evictOne S touched k).2 with
      ⟨q1, q2, q3, q4⟩
    exact ⟨fun j h => q1 j (p1 j h), fun j h => q2 j (p2 j h),
      fun n h => q3 n (p3 n h), fun n h => q4 n (p4 n h)⟩

theorem evictFold_clean (h : Nat) :
    ∀ (l : List Nat) (S : MState) (touched : Finset Nat) (tx : MemPoolTx),
      h ∈ l → mpLookup S.txs h = some tx →
      mpLookup (l.foldl (fun acc k => evictOne acc.1 acc.2 k)
          (S, touched)).1.tx_to_asset_create h = none
      ∧ mpLookup (l.foldl (fun acc k => evictOne acc.1 acc.2 k)
          (S, touched)).1.tx_to_asset_reissue h = none
      ∧ (∀ n ∈ (mpLookup S.tx_to_asset_create h).getD ∅,
          mpLookup (l.foldl (fun acc k => evictOne acc.1 acc.2 k)
            (S, touched)).1.asset_creates n = none)
      ∧ (∀ n ∈ (mpLookup S.tx_to_asset_reissue h).getD ∅,
          mpLookup (l.foldl (fun acc k => evictOne acc.1 acc.2 k)
            (S, touched)).1.asset_reissues n = none) := by
  intro l
  induction l with
  | nil =>
    intro S touched tx hmem
    exact absurd hmem (by simp)
  | cons k t ih =>
    intro S touched tx hmem htx
    rw [List.foldl_cons]
    by_cases hk : k = h
    · subst hk
      rcases evictOne_cleans S touched k tx htx with ⟨c1, c2, c3, c4⟩
      rcases evictFold_preserves_none t (evictOne S touched k).1
        (evictOne S touched k).2 with ⟨q1, q2, q3, q4⟩
      exact ⟨q1 k c1, q2 k c2, fun n hn => q3 n (c3 n hn),
        fun n hn => q4 n (c4 n hn)⟩
    · have hmem2 : h ∈ t := by
        rcases List.mem_cons.1 hmem with h1 | h1
        · exact absurd h1.symm hk
        · exact h1
      rcases evictOne_other S touched k h hk with ⟨o1, o2, o3⟩
      rcases ih (evictOne S touched k).1 (evictOne S touched k).2 tx hmem2
        (by rw [o1]; exact htx) with ⟨r1, r2, r3, r4⟩
      refine ⟨r1, r2, ?_, ?_⟩
      · intro n hn
        refine r3 n ?_
        rw [o2]
        exact hn
      · intro n hn
        refine r4 n ?_
        rw [o3]
        exact hn

/-- claim C3 (amended): evicting a transaction that is present in
`txs` and absent from the node's hash set removes its entries from
`tx_to_asset_create` and `tx_to_asset_reissue`, and removes every
asset name it registered from `asset_creates` / `asset_reissues`.
(The only-if direction of the claim fails: metadata registered during
`_fetch_and_accept` for a transaction that the acceptance loop later
drops stays behind with no introducing tx in `txs` — see the
counterexample.) -/
theorem C3_asset_index_evict (S : MState) (touched : Finset Nat)
    (H : Finset Nat) (h : Nat) (tx : MemPoolTx)
    (hmem : mpLookup S.txs h = some tx) (hout : h ∉ H) :
    mpLookup (evictAll S touched H).1.tx_to_asset_create h = none
    ∧ mpLookup (evictAll S touched H).1.tx_to_asset_reissue h = none
    ∧ (∀ n ∈ (mpLookup S.tx_to_asset_create h).getD ∅,
        mpLookup (evictAll S touched H).1.asset_creates n = none)
    ∧ (∀ n ∈ (mpLookup S.tx_to_asset_reissue h).getD ∅,
        mpLookup (evictAll S touched H).1.asset_reissues n = none) := by
  have hl : h ∈ (mpKeys S.txs).filter fun k => k ∉ H := by
    rw [List.mem_filter]
    refine ⟨(mem_mpKeys_iff S.txs h).2 (by rw [hmem]; simp), by simpa using hout⟩
  exact evictFold_clean h ((mpKeys S.txs).filter fun k => k ∉ H) S touched tx
    hl hmem

def c3tx : MemPoolTx := ⟨[], none, [⟨5, 10, false, none⟩], 0, 100⟩

def c3iss : AssetIssuance := ⟨1000, 0, true, false, none, 1, 0, -1⟩

def c3S : MState :=
  ⟨mpInsert 1 c3tx mpEmpty,
   mpInsert 5 ({1} : Finset Nat) mpEmpty,
   mpInsert "A" c3iss mpEmpty,
   mpInsert 1 ({"A"} : Finset String) mpEmpty,
   mpEmpty, mpEmpty⟩

/-- Witness for C3 at a one-transaction state that registered the
creation of asset "A". -/
theorem C3_asset_index_evict_witness :
    (mpLookup c3S.txs 1 = some c3tx ∧ (1 : Nat) ∉ (∅ : Finset Nat))
    ∧ (mpLookup (evictAll c3S ∅ ∅).1.tx_to_asset_create 1 = none
      ∧ mpLookup (evictAll c3S ∅ ∅).1.tx_to_asset_reissue 1 = none
      ∧ (∀ n ∈ (mpLookup c3S.tx_to_asset_create 1).getD ∅,
          mpLookup (evictAll c3S ∅ ∅).1.asset_creates n = none)
      ∧ (∀ n ∈ (mpLookup c3S.tx_to_asset_reissue 1).getD ∅,
          mpLookup (evictAll c3S ∅ ∅).1.asset_reissues n = none)) :=
  ⟨⟨by decide, by decide⟩,
   C3_asset_index_evict c3S ∅ ∅ 1 c3tx (by decide) (by decide)⟩

def c3drop : MemPoolTx := ⟨[(99, 0)], none, [⟨5, 10, false, none⟩], 0, 100⟩

def c3empty : MState := ⟨mpEmpty, mpEmpty, mpEmpty, mpEmpty, mpEmpty, mpEmpty⟩

def c3inp : PMIn := ⟨{1}, 7, 7, [(1, c3drop)], [("A", c3iss)], [], [], []⟩

/-- Counterexample to the only-if direction of claim C3: a full
`_process_mempool` run registers the issuance of "A" during
`_fetch_and_accept`, then the acceptance loop drops the introducing
transaction (its prevout resolves nowhere), leaving `asset_creates`
and `tx_to_asset_create` populated while `txs` is empty — orphaned
asset metadata with no introducing transaction in the mempool. -/
theorem C3_asset_index_counterexample :
    (processMempool c3empty ∅ ∅ c3inp).state.asset_creates.val
        = [("A", c3iss)]
      ∧ (processMempool c3empty ∅ ∅ c3inp).state.tx_to_asset_create.val
        = [(1, {"A"})]
      ∧ (processMempool c3empty ∅ ∅ c3inp).state.txs = mpEmpty
      ∧ (processMempool c3empty ∅ ∅ c3inp).err = none := by
  decide

/-! ## The two-sided `hashXs` index invariant (claim C7).

`hashXsInv` transcribes the claim: a tx hash sits in the set stored at
a scripthash exactly when the tx is in `txs` and one of its in_pairs
or out_pairs pays that scripthash, and no stored set is empty. -/

def hashXsInv (txs : Mp Nat MemPoolTx) (hashXs : Mp Nat (Finset Nat)) : Prop :=
  (∀ sh h, h ∈ (mpLookup hashXs sh).getD ∅
    ↔ ∃ tx, mpLookup txs h = some tx ∧ sh ∈ txHashXs tx)
  ∧ ∀ sh s, mpLookup hashXs sh = some s → s ≠ ∅

theorem hashXsAdd_lookup (tx_hash : Nat) :
    ∀ (pairs : List OutPair) (hashXs : Mp Nat (Finset Nat))
      (touched : Finset Nat) (sh h : Nat),
      (h ∈ (mpLookup (hashXsAdd tx_hash pairs hashXs touched).1 sh).getD ∅
        ↔ (h = tx_hash ∧ sh ∈ pairs.map OutPair.hashX)
          ∨ h ∈ (mpLookup hashXs sh).getD ∅) := by
  intro pairs
  induction pairs with
  | nil =>
    intro hashXs touched sh h
    simp [hashXsAdd]
  | cons p ps ih =>
    intro hashXs touched sh h
    have hstep : hashXsAdd tx_hash (p :: ps) hashXs touched
        = hashXsAdd tx_hash ps
          (mpInsert p.hashX
            (insert tx_hash ((mpLookup hashXs p.hashX).getD ∅)) hashXs)
          (insert p.hashX touched) := rfl
    rw [hstep, ih, mpLookup_mpInsert]
    by_cases hsh : p.hashX = sh
    · subst hsh
      rw [if_pos rfl]
      simp only [Option.getD_some, Finset.mem_insert, List.map_cons,
        List.mem_cons]
      constructor
      · rintro (⟨h1, h2⟩ | h1 | h1)
        · exact Or.inl ⟨h1, Or.inr h2⟩
        · exact Or.inl ⟨h1, Or.inl trivial⟩
        · exact Or.inr h1
      · rintro (⟨h1, h2 | h2⟩ | h1)
        · exact Or.inr (Or.inl h1)
        · exact Or.inl ⟨h1, h2⟩
        · exact Or.inr (Or.inr h1)
    · rw [if_neg hsh]
      have hsh' : ¬sh = p.hashX := fun hh => hsh hh.symm
      simp only [List.map_cons, List.mem_cons]
      constructor
      · rintro (⟨h1, h2⟩ | h1)
        · exact Or.inl ⟨h1, Or.inr h2⟩
        · exact Or.inr h1
      · rintro (⟨h1, h2 | h2⟩ | h1)
        · exact absurd h2 hsh'
        · exact Or.inl ⟨h1, h2⟩
        · exact Or.inr h1

theorem hashXsAdd_some (tx_hash : Nat) :
    ∀ (pairs : List OutPair) (hashXs : Mp Nat (Finset Nat))
      (touched : Finset Nat) (sh : Nat) (s : Finset Nat),
      mpLookup (hashXsAdd tx_hash pairs hashXs touched).1 sh = some s →
      mpLookup hashXs sh = some s ∨ tx_hash ∈ s := by
  intro pairs
  induction pairs with
  | nil =>
    intro hashXs touched sh s hl
    exact Or.inl hl
  | cons p ps ih =>
    intro hashXs touched sh s hl
    have hstep : hashXsAdd tx_hash (p :: ps) hashXs touched
        = hashXsAdd tx_hash ps
          (mpInsert p.hashX
            (insert tx_hash ((mpLookup hashXs p.hashX).getD ∅)) hashXs)
          (insert p.hashX touched) := rfl
    rw [hstep] at hl
    rcases ih _ _ _ _ hl with h1 | h1
    · rw [mpLookup_mpInsert] at h1
      by_cases hsh : p.hashX = sh
      · rw [if_pos hsh] at h1
        refine Or.inr ?_
        rw [← Option.some.inj h1]
        exact Finset.mem_insert_self _ _
      · rw [if_neg hsh] at h1
        exact Or.inl h1
    · exact Or.inr h1

theorem hashXsRemove_lookup (tx_hash : Nat) :
    ∀ (shs : List Nat) (hashXs : Mp Nat (Finset Nat)) (sh h : Nat),
      h ∈ (mpLookup (hashXsRemove tx_hash shs hashXs) sh).getD ∅
        ↔ h ∈ (mpLookup hashXs sh).getD ∅ ∧ ¬(h = tx_hash ∧ sh ∈ shs) := by
  intro shs
  induction shs with
  | nil =>
    intro hashXs sh h
    simp [hashXsRemove]
  | cons a t ih =>
    intro hashXs sh h
    have hstep : hashXsRemove tx_hash (a :: t) hashXs
        = hashXsRemove tx_hash t
          (if ((mpLookup hashXs a).getD ∅).erase tx_hash = ∅
            then mpErase a hashXs
            else mpInsert a (((mpLookup hashXs a).getD ∅).erase tx_hash)
              hashXs) := rfl
    rw [hstep, ih]
    by_cases ha : a = sh
    · subst ha
      by_cases hE : ((mpLookup hashXs a).getD ∅).erase tx_hash = ∅
      · rw [if_pos hE, mpLookup_mpErase, if_pos rfl]
        simp only [Option.getD_none, Finset.not_mem_empty, false_and,
          List.mem_cons, true_or, and_true, false_iff]
        intro hcon
        have hm : h ∈ ((mpLookup hashXs a).getD ∅).erase tx_hash :=
          Finset.mem_erase.mpr ⟨hcon.2, hcon.1⟩
        rw [hE] at hm
        exact Finset.not_mem_empty h hm
      · rw [if_neg hE, mpLookup_mpInsert, if_pos rfl]
        simp only [Option.getD_some, Finset.mem_erase, List.mem_cons,
          true_or, and_true]
        tauto
    · have hbase : mpLookup
          (if ((mpLookup hashXs a).getD ∅).erase tx_hash = ∅
            then mpErase a hashXs
            else mpInsert a (((mpLookup hashXs a).getD ∅).erase tx_hash)
              hashXs) sh = mpLookup hashXs sh := by
        split
        · rw [mpLookup_mpErase, if_neg ha]
        · rw [mpLookup_mpInsert, if_neg ha]
      rw [hbase]
      have ha' : ¬sh = a := fun hh => ha hh.symm
      simp only [List.mem_cons]
      constructor
      · rintro ⟨h1, h2⟩
        exact ⟨h1, fun hcon => by
          rcases hcon.2 with hc | hc
          · exact ha' hc
          · exact h2 ⟨hcon.1, hc⟩⟩
      · rintro ⟨h1, h2⟩
        exact ⟨h1, fun hcon => h2 ⟨hcon.1, Or.inr hcon.2⟩⟩

theorem hashXsRemove_some (tx_hash : Nat) :
    ∀ (shs : List Nat) (hashXs : Mp Nat (Finset Nat)) (sh : Nat)
      (s : Finset Nat),
      mpLookup (hashXsRemove tx_hash shs hashXs) sh = some s →
      mpLookup hashXs sh = some s ∨ s ≠ ∅ := by
  intro shs
  induction shs with
  | nil =>
    intro hashXs sh s hl
    exact Or.inl hl
  | cons a t ih =>
    intro hashXs sh s hl
    have hstep : hashXsRemove tx_hash (a :: t) hashXs
        = hashXsRemove tx_hash t
          (if ((mpLookup hashXs a).getD ∅).erase tx_hash = ∅
            then mpErase a hashXs
            else mpInsert a (((mpLookup hashXs a).getD ∅).erase tx_hash)
              hashXs) := rfl
    rw [hstep] at hl
    rcases ih _ _ _ hl with h1 | h1
    · by_cases hE : ((mpLookup hashXs a).getD ∅).erase tx_hash = ∅
      · rw [if_pos hE, mpLookup_mpErase] at h1
        by_cases ha : a = sh
        · rw [if_pos ha] at h1
          exact absurd h1 (Option.noConfusion)
        · rw [if_neg ha] at h1
          exact Or.inl h1
      · rw [if_neg hE, mpLookup_mpInsert] at h1
        by_cases ha : a = sh
        · rw [if_pos ha] at h1
          refine Or.inr ?_
          rw [← Option.some.inj h1]
          exact hE
        · rw [if_neg ha] at h1
          exact Or.inl h1
    · exact Or.inr h1

theorem hashXsInv_commit (txs : Mp Nat MemPoolTx) (hashXs : Mp Nat (Finset Nat))
    (touched : Finset Nat) (h0 : Nat) (tx : MemPoolTx) (l : List OutPair)
    (hinv : hashXsInv txs hashXs) (hfresh : mpLookup txs h0 = none)
    (hl : ∀ sh, sh ∈ l.map OutPair.hashX ↔ sh ∈ txHashXs tx) :
    hashXsInv (mpInsert h0 tx txs) (hashXsAdd h0 l hashXs touched).1 := by
  constructor
  · intro sh h
    rw [hashXsAdd_lookup, hinv.1 sh h]
    constructor
    · rintro (⟨rfl, hsh⟩ | ⟨tx2, htx2, hsh2⟩)
      · exact ⟨tx, by rw [mpLookup_mpInsert, if_pos rfl], (hl sh).1 hsh⟩
      · have hne : ¬h0 = h := by
          intro hh
          rw [hh, htx2] at hfresh
          exact Option.noConfusion hfresh
        exact ⟨tx2, by rw [mpLookup_mpInsert, if_neg hne]; exact htx2, hsh2⟩
    · rintro ⟨tx2, htx2, hsh2⟩
      rw [mpLookup_mpInsert] at htx2
      by_cases he : h0 = h
      · rw [if_pos he] at htx2
        refine Or.inl ⟨he.symm, ?_⟩
        rw [← Option.some.inj htx2] at hsh2
        exact (hl sh).2 hsh2
      · rw [if_neg he] at htx2
        exact Or.inr ⟨tx2, htx2, hsh2⟩
  · intro sh s hs
    rcases hashXsAdd_some h0 l hashXs touched sh s hs with h1 | h1
    · exact hinv.2 sh s h1
    · intro hcon
      rw [hcon] at h1
      exact Finset.not_mem_empty h0 h1

theorem acceptStep_inv (tc tr : Mp Nat (Finset String))
    (u : List (Prevout × OutPair)) (st : AccState) (e : Nat × MemPoolTx)
    (hinv : hashXsInv st.txs st.hashXs)
    (hfresh : mpLookup st.txs e.1 = none) :
    hashXsInv (acceptStep tc tr u st e).txs
      (acceptStep tc tr u st e).hashXs := by
  unfold acceptStep
  by_cases hc : st.crashed
  · rw [if_pos hc]
    exact hinv
  · rw [if_neg hc]
    rcases hres : resolvePrevouts u st.txs e.2.prevouts with pairs | _ | _
    · dsimp only
      refine hashXsInv_commit st.txs st.hashXs st.touched e.1 _
        (pairs ++ e.2.out_pairs) hinv hfresh ?_
      intro sh
      simp [txHashXs, List.map_append]
    · exact hinv
    · exact hinv

theorem foldl_acceptStep_inv (tc tr : Mp Nat (Finset String))
    (u : List (Prevout × OutPair)) :
    ∀ (l : List (Nat × MemPoolTx)) (st : AccState),
      (l.map Prod.fst).Nodup →
      (∀ e ∈ l, mpLookup st.txs e.1 = none) →
      hashXsInv st.txs st.hashXs →
      hashXsInv (l.foldl (acceptStep tc tr u) st).txs
        (l.foldl (acceptStep tc tr u) st).hashXs := by
  intro l
  induction l with
  | nil =>
    intro st _ _ hinv
    exact hinv
  | cons e t ih =>
    intro st hnd habs hinv
    rw [List.foldl_cons]
    have hfresh : mpLookup st.txs e.1 = none := habs e (List.mem_cons_self e t)
    have hinv1 := acceptStep_inv tc tr u st e hinv hfresh
    simp only [List.map_cons, List.nodup_cons] at hnd
    have habs1 : ∀ e2 ∈ t, mpLookup (acceptStep tc tr u st e).txs e2.1
        = none := by
      intro e2 he2
      have hne : ¬e.1 = e2.1 := by
        intro hh
        exact hnd.1 (hh ▸ List.mem_map_of_mem Prod.fst he2)
      rcases acceptStep_shape tc tr u st e with ⟨-, hs⟩ | hs | hs
        | ⟨tx', hx2, tou2, ass2, uns2, hs⟩
      all_goals rw [hs]
      all_goals try dsimp only
      · exact habs e2 (List.mem_cons_of_mem e he2)
      · exact habs e2 (List.mem_cons_of_mem e he2)
      · exact habs e2 (List.mem_cons_of_mem e he2)
      · rw [mpLookup_mpInsert, if_neg hne]
        exact habs e2 (List.mem_cons_of_mem e he2)
    exact ih _ hnd.2 habs1 hinv1

theorem acceptTransactions_inv (tc tr : Mp Nat (Finset String))
    (txs : Mp Nat MemPoolTx) (hashXs : Mp Nat (Finset Nat))
    (tx_map : List (Nat × MemPoolTx)) (utxo_map : List (Prevout × OutPair))
    (touched : Finset Nat) (assets : Finset String)
    (hnd : (tx_map.map Prod.fst).Nodup)
    (habs : ∀ e ∈ tx_map, mpLookup txs e.1 = none)
    (hinv : hashXsInv txs hashXs) :
    hashXsInv
      (acceptTransactions tc tr txs hashXs tx_map utxo_map touched
        assets).1.txs
      (acceptTransactions tc tr txs hashXs tx_map utxo_map touched
        assets).1.hashXs := by
  unfold acceptTransactions
  dsimp only
  exact foldl_acceptStep_inv tc tr utxo_map tx_map
    ⟨txs, hashXs, [], (utxo_map.map Prod.fst).toFinset, touched, assets,
      false⟩ hnd habs hinv

theorem evictOne_inv (S : MState) (touched : Finset Nat) (h0 : Nat)
    (hinv : hashXsInv S.txs S.hashXs) :
    hashXsInv (evictOne S touched h0).1.txs
      (evictOne S touched h0).1.hashXs := by
  unfold evictOne
  rcases hm : mpLookup S.txs h0 with _ | tx
  · exact hinv
  · dsimp only
    constructor
    · intro sh h
      rw [hashXsRemove_lookup, hinv.1 sh h]
      constructor
      · rintro ⟨⟨tx2, htx2, hsh2⟩, hnot⟩
        by_cases he : h0 = h
        · exfalso
          rw [← he, hm] at htx2
          have he2 : tx2 = tx := (Option.some.inj htx2).symm
          subst he2
          exact hnot ⟨he.symm, (Finset.mem_sort (· ≤ ·)).2 hsh2⟩
        · exact ⟨tx2, by rw [mpLookup_mpErase, if_neg he]; exact htx2, hsh2⟩
      · rintro ⟨tx2, htx2, hsh2⟩
        rw [mpLookup_mpErase] at htx2
        by_cases he : h0 = h
        · rw [if_pos he] at htx2
          exact absurd htx2 Option.noConfusion
        · rw [if_neg he] at htx2
          refine ⟨⟨tx2, htx2, hsh2⟩, ?_⟩
          rintro ⟨hh, -⟩
          exact he hh.symm
    · intro sh s hs
      rcases hashXsRemove_some h0 _ S.hashXs sh s hs with h1 | h1
      · exact hinv.2 sh s h1
      · exact h1

theorem evictFold_inv :
    ∀ (l : List Nat) (p : MState × Finset Nat),
      hashXsInv p.1.txs p.1.hashXs →
      hashXsInv
        (l.foldl (fun acc h => evictOne acc.1 acc.2 h) p).1.txs
        (l.foldl (fun acc h => evictOne acc.1 acc.2 h) p).1.hashXs := by
  intro l
  induction l with
  | nil =>
    intro p hinv
    exact hinv
  | cons a t ih =>
    intro p hinv
    rw [List.foldl_cons]
    exact ih (evictOne p.1 p.2 a) (evictOne_inv p.1 p.2 a hinv)

theorem evictAll_inv (S : MState) (touched : Finset Nat) (H : Finset Nat)
    (hinv : hashXsInv S.txs S.hashXs) :
    hashXsInv (evictAll S touched H).1.txs (evictAll S touched H).1.hashXs := by
  unfold evictAll
  exact evictFold_inv _ (S, touched) hinv

theorem acceptLoop_inv (tc tr : Mp Nat (Finset String)) :
    ∀ (n : Nat) (txs : Mp Nat MemPoolTx) (hashXs : Mp Nat (Finset Nat))
      (touched : Finset Nat) (assets : Finset String)
      (tx_map : List (Nat × MemPoolTx)) (utxo_map : List (Prevout × OutPair))
      (prior : Nat),
      (tx_map.map Prod.fst).Nodup →
      (∀ e ∈ tx_map, mpLookup txs e.1 = none) →
      hashXsInv txs hashXs →
      hashXsInv
        (acceptLoop n tc tr txs hashXs touched assets tx_map utxo_map
          prior).txs
        (acceptLoop n tc tr txs hashXs touched assets tx_map utxo_map
          prior).hashXs := by
  intro n
  induction n with
  | zero =>
    intro txs hashXs touched assets tx_map utxo_map prior _ _ hinv
    exact hinv
  | succ n ihn =>
    intro txs hashXs touched assets tx_map utxo_map prior hnd habs hinv
    by_cases hg : tx_map ≠ [] ∧ tx_map.length ≠ prior
    · have hinv1 := acceptTransactions_inv tc tr txs hashXs tx_map utxo_map
        touched assets hnd habs hinv
      have hfold : ∀ e ∈ (acceptTransactions tc tr txs hashXs tx_map utxo_map
          touched assets).1.deferred,
          mpLookup (acceptTransactions tc tr txs hashXs tx_map utxo_map touched
            assets).1.txs e.1 = none := by
        intro e he
        exact foldl_acceptStep_lookup_none tc tr utxo_map tx_map
          ⟨txs, hashXs, [], (utxo_map.map Prod.fst).toFinset, touched, assets,
            false⟩ (by simpa using hnd) (by simpa using habs) e he
      by_cases hc : (acceptTransactions tc tr txs hashXs tx_map utxo_map
          touched assets).1.crashed = true
      · have hr : acceptLoop (n + 1) tc tr txs hashXs touched assets tx_map
            utxo_map prior
            = ⟨(acceptTransactions tc tr txs hashXs tx_map utxo_map touched assets).1.txs,
               (acceptTransactions tc tr txs hashXs tx_map utxo_map touched assets).1.hashXs,
               (acceptTransactions tc tr txs hashXs tx_map utxo_map touched assets).1.deferred,
               (acceptTransactions tc tr txs hashXs tx_map utxo_map touched assets).2,
               (acceptTransactions tc tr txs hashXs tx_map utxo_map touched assets).1.touched,
               (acceptTransactions tc tr txs hashXs tx_map utxo_map touched assets).1.assets_touched,
               true⟩ := by
          rw [acceptLoop, if_pos hg, if_pos hc]
        rw [hr]
        exact hinv1
      · have hr : acceptLoop (n + 1) tc tr txs hashXs touched assets tx_map
            utxo_map prior
            = acceptLoop n tc tr
              (acceptTransactions tc tr txs hashXs tx_map utxo_map touched assets).1.txs
              (acceptTransactions tc tr txs hashXs tx_map utxo_map touched assets).1.hashXs
              (acceptTransactions tc tr txs hashXs tx_map utxo_map touched assets).1.touched
              (acceptTransactions tc tr txs hashXs tx_map utxo_map touched assets).1.assets_touched
              (acceptTransactions tc tr txs hashXs tx_map utxo_map touched assets).1.deferred
              (acceptTransactions tc tr txs hashXs tx_map utxo_map touched assets).2
              tx_map.length := by
          rw [acceptLoop, if_pos hg, if_neg hc]
        rw [hr]
        have hsub := acceptTransactions_deferred_sublist tc tr txs hashXs
          tx_map utxo_map touched assets
        exact ihn _ _ _ _ _ _ _ (List.Nodup.sublist (hsub.map Prod.fst) hnd)
          hfold hinv1
    · have hr : acceptLoop (n + 1) tc tr txs hashXs touched assets tx_map
          utxo_map prior
          = ⟨txs, hashXs, tx_map, utxo_map, touched, assets, false⟩ := by
        rw [acceptLoop, if_neg hg]
      rw [hr]
      exact hinv

/-- claim C7: after every complete run of `_process_mempool` (evict and
accept steps included), a tx hash is a member of `hashXs[sh]` exactly
when it is a key of `txs` and one of that transaction's in_pairs or
out_pairs pays scripthash `sh`, and every set stored in `hashXs` is
non-empty — provided the invariant held on entry, the batch keys are
distinct and the batch contains only hashes absent from `txs` after
eviction (as `_process_mempool` computes them). -/
theorem C7_hashXs_invariant (S : MState) (touched : Finset Nat)
    (assets : Finset String) (inp : PMIn)
    (hinv : hashXsInv S.txs S.hashXs)
    (hnd : (inp.tx_map.map Prod.fst).Nodup)
    (hfresh : ∀ e ∈ inp.tx_map,
      mpLookup (evictAll S touched inp.all_hashes).1.txs e.1 = none) :
    hashXsInv (processMempool S touched assets inp).state.txs
      (processMempool S touched assets inp).state.hashXs := by
  unfold processMempool
  by_cases hh : inp.mempool_height ≠ inp.db_height
  · rw [if_pos hh]
    exact hinv
  · rw [if_neg hh]
    dsimp only
    have hev := evictAll_inv S touched inp.all_hashes hinv
    by_cases hn : inp.all_hashes
        \ (mpKeys (evictAll S touched inp.all_hashes).1.txs).toFinset = ∅
    · rw [if_pos hn]
      exact hev
    · rw [if_neg hn]
      have hinv1 := acceptTransactions_inv
        (registerIssuances inp.internal_creates
          (evictAll S touched inp.all_hashes).1.tx_to_asset_create
          (evictAll S touched inp.all_hashes).1.asset_creates).1
        (registerIssuances inp.internal_reissues
          (evictAll S touched inp.all_hashes).1.tx_to_asset_reissue
          (evictAll S touched inp.all_hashes).1.asset_reissues).1
        (evictAll S touched inp.all_hashes).1.txs
        (evictAll S touched inp.all_hashes).1.hashXs
        inp.tx_map
        (buildUtxoMap (fetchPrevouts inp.tx_map inp.all_hashes) inp.utxo_res
          inp.asset_res)
        (evictAll S touched inp.all_hashes).2 assets hnd hfresh hev
      by_cases hc : (acceptTransactions
          (registerIssuances inp.internal_creates
            (evictAll S touched inp.all_hashes).1.tx_to_asset_create
            (evictAll S touched inp.all_hashes).1.asset_creates).1
          (registerIssuances inp.internal_reissues
            (evictAll S touched inp.all_hashes).1.tx_to_asset_reissue
            (evictAll S touched inp.all_hashes).1.asset_reissues).1
          (evictAll S touched inp.all_hashes).1.txs
          (evictAll S touched inp.all_hashes).1.hashXs
          inp.tx_map
          (buildUtxoMap (fetchPrevouts inp.tx_map inp.all_hashes) inp.utxo_res
            inp.asset_res)
          (evictAll S touched inp.all_hashes).2 assets).1.crashed = true
      · rw [if_pos hc]
        exact hinv1
      · rw [if_neg hc]
        refine acceptLoop_inv _ _ _ _ _ _ _ _ _ _ ?_ ?_ hinv1
        · exact List.Nodup.sublist
            ((acceptTransactions_deferred_sublist _ _ _ _ _ _ _ _).map
              Prod.fst) hnd
        · intro e he
          exact foldl_acceptStep_lookup_none _ _ _ inp.tx_map
            ⟨(evictAll S touched inp.all_hashes).1.txs,
             (evictAll S touched inp.all_hashes).1.hashXs, [],
             ((buildUtxoMap (fetchPrevouts inp.tx_map inp.all_hashes)
               inp.utxo_res inp.asset_res).map Prod.fst).toFinset,
             (evictAll S touched inp.all_hashes).2, assets, false⟩
            (by simpa using hnd) (by simpa using hfresh) e he

def c7S : MState := ⟨mpEmpty, mpEmpty, mpEmpty, mpEmpty, mpEmpty, mpEmpty⟩

def c7inp : PMIn :=
  ⟨{1}, 7, 7, [(1, ⟨[], none, [⟨5, 10, false, none⟩], 0, 100⟩)], [], [], [],
   []⟩

/-- Witness for C7 at a clean one-transaction cycle. -/
theorem C7_hashXs_invariant_witness :
    (hashXsInv c7S.txs c7S.hashXs
      ∧ (c7inp.tx_map.map Prod.fst).Nodup
      ∧ ∀ e ∈ c7inp.tx_map,
          mpLookup (evictAll c7S ∅ c7inp.all_hashes).1.txs e.1 = none)
    ∧ hashXsInv (processMempool c7S ∅ ∅ c7inp).state.txs
        (processMempool c7S ∅ ∅ c7inp).state.hashXs := by
  have hinv : hashXsInv c7S.txs c7S.hashXs := by
    constructor
    · intro sh h
      simp [c7S, mpLookup, mpEmpty, mpRawLookup]
    · intro sh s hs
      simp [c7S, mpLookup, mpEmpty, mpRawLookup] at hs
  exact ⟨⟨hinv, by decide, by decide⟩,
    C7_hashXs_invariant c7S ∅ ∅ c7inp hinv (by decide) (by decide)⟩

/-! ## Round-trip support (claim C9): option-level descriptions of the
`hashXs` add/remove folds and of the issuance-registration fold. -/

theorem hashXsAdd_lookup_eq (tx_hash : Nat) :
    ∀ (pairs : List OutPair) (hashXs : Mp Nat (Finset Nat))
      (touched : Finset Nat) (sh : Nat),
      mpLookup (hashXsAdd tx_hash pairs hashXs touched).1 sh
        = if sh ∈ pairs.map OutPair.hashX
          then some (insert tx_hash ((mpLookup hashXs sh).getD ∅))
          else mpLookup hashXs sh := by
  intro pairs
  induction pairs with
  | nil =>
    intro hashXs touched sh
    simp [hashXsAdd]
  | cons p ps ih =>
    intro hashXs touched sh
    have hstep : hashXsAdd tx_hash (p :: ps) hashXs touched
        = hashXsAdd tx_hash ps
          (mpInsert p.hashX
            (insert tx_hash ((mpLookup hashXs p.hashX).getD ∅)) hashXs)
          (insert p.hashX touched) := rfl
    rw [hstep, ih]
    by_cases hps : sh ∈ ps.map OutPair.hashX
    · rw [if_pos hps, mpLookup_mpInsert]
      have hcons : sh ∈ (p :: ps).map OutPair.hashX :=
        List.mem_cons_of_mem _ hps
      rw [if_pos hcons]
      by_cases hp : p.hashX = sh
      · rw [if_pos hp, Option.getD_some, Finset.insert_idem]
        subst hp
        rfl
      · rw [if_neg hp]
    · rw [if_neg hps, mpLookup_mpInsert]
      by_cases hp : p.hashX = sh
      · subst hp
        rw [if_pos rfl]
        have hcons : p.hashX ∈ (p :: ps).map OutPair.hashX := by simp
        rw [if_pos hcons]
      · rw [if_neg hp, if_neg ?_]
        intro hcon
        rcases List.mem_cons.mp hcon with hc | hc
        · exact hp hc.symm
        · exact hps hc

theorem hashXsRemove_lookup_eq (tx_hash : Nat) :
    ∀ (shs : List Nat) (hashXs : Mp Nat (Finset Nat)) (sh : Nat),
      mpLookup (hashXsRemove tx_hash shs hashXs) sh
        = if sh ∈ shs
          then (if ((mpLookup hashXs sh).getD ∅).erase tx_hash = ∅ then none
                else some (((mpLookup hashXs sh).getD ∅).erase tx_hash))
          else mpLookup hashXs sh := by
  intro shs
  induction shs with
  | nil =>
    intro hashXs sh
    simp [hashXsRemove]
  | cons a t ih =>
    intro hashXs sh
    have hstep : hashXsRemove tx_hash (a :: t) hashXs
        = hashXsRemove tx_hash t
          (if ((mpLookup hashXs a).getD ∅).erase tx_hash = ∅
            then mpErase a hashXs
            else mpInsert a (((mpLookup hashXs a).getD ∅).erase tx_hash)
              hashXs) := rfl
    rw [hstep, ih]
    by_cases ha : a = sh
    · subst ha
      have hbase : mpLookup
          (if ((mpLookup hashXs a).getD ∅).erase tx_hash = ∅
            then mpErase a hashXs
            else mpInsert a (((mpLookup hashXs a).getD ∅).erase tx_hash)
              hashXs) a
          = if ((mpLookup hashXs a).getD ∅).erase tx_hash = ∅ then none
            else some (((mpLookup hashXs a).getD ∅).erase tx_hash) := by
        by_cases hE : ((mpLookup hashXs a).getD ∅).erase tx_hash = ∅
        · rw [if_pos hE, if_pos hE, mpLookup_mpErase, if_pos rfl]
        · rw [if_neg hE, if_neg hE, mpLookup_mpInsert, if_pos rfl]
      rw [if_pos (List.mem_cons_self a t)]
      by_cases hat : a ∈ t
      · rw [if_pos hat, hbase]
        by_cases hE : ((mpLookup hashXs a).getD ∅).erase tx_hash = ∅
        · simp [hE]
        · simp [hE, Finset.erase_idem]
      · rw [if_neg hat, hbase]
    · have hbase : mpLookup
          (if ((mpLookup hashXs a).getD ∅).erase tx_hash = ∅
            then mpErase a hashXs
            else mpInsert a (((mpLookup hashXs a).getD ∅).erase tx_hash)
              hashXs) sh = mpLookup hashXs sh := by
        split
        · rw [mpLookup_mpErase, if_neg ha]
        · rw [mpLookup_mpInsert, if_neg ha]
      rw [hbase]
      by_cases hst : sh ∈ t
      · rw [if_pos hst, if_pos (List.mem_cons_of_mem a hst)]
      · rw [if_neg hst, if_neg ?_]
        intro hcon
        rcases List.mem_cons.mp hcon with hc | hc
        · exact ha hc.symm
        · exact hst hc

theorem registerIssuances_lookup_tx (j : Nat) :
    ∀ (internal : List (String × AssetIssuance))
      (tx_to : Mp Nat (Finset String)) (byName : Mp String AssetIssuance),
      (∀ e ∈ internal, e.2.source_tx ≠ j) →
      mpLookup (registerIssuances internal tx_to byName).1 j
        = mpLookup tx_to j := by
  intro internal
  induction internal with
  | nil =>
    intro tx_to byName _
    rfl
  | cons e t ih =>
    intro tx_to byName hall
    have hstep : registerIssuances (e :: t) tx_to byName
        = registerIssuances t
          (mpInsert e.2.source_tx
            (insert e.1 ((mpLookup tx_to e.2.source_tx).getD ∅)) tx_to)
          (mpInsert e.1 e.2 byName) := rfl
    rw [hstep, ih _ _ (fun e2 he2 => hall e2 (List.mem_cons_of_mem e he2)),
      mpLookup_mpInsert, if_neg (hall e (List.mem_cons_self e t))]

theorem registerIssuances_lookup_name (a : String) :
    ∀ (internal : List (String × AssetIssuance))
      (tx_to : Mp Nat (Finset String)) (byName : Mp String AssetIssuance),
      (∀ e ∈ internal, e.1 ≠ a) →
      mpLookup (registerIssuances internal tx_to byName).2 a
        = mpLookup byName a := by
  intro internal
  induction internal with
  | nil =>
    intro tx_to byName _
    rfl
  | cons e t ih =>
    intro tx_to byName hall
    have hstep : registerIssuances (e :: t) tx_to byName
        = registerIssuances t
          (mpInsert e.2.source_tx
            (insert e.1 ((mpLookup tx_to e.2.source_tx).getD ∅)) tx_to)
          (mpInsert e.1 e.2 byName) := rfl
    rw [hstep, ih _ _ (fun e2 he2 => hall e2 (List.mem_cons_of_mem e he2)),
      mpLookup_mpInsert, if_neg (hall e (List.mem_cons_self e t))]

theorem registerIssuances_mem_tx (j : Nat) :
    ∀ (internal : List (String × AssetIssuance))
      (tx_to : Mp Nat (Finset String)) (byName : Mp String AssetIssuance)
      (a : String),
      a ∈ (mpLookup (registerIssuances internal tx_to byName).1 j).getD ∅
        ↔ a ∈ (mpLookup tx_to j).getD ∅
          ∨ ∃ e ∈ internal, e.2.source_tx = j ∧ e.1 = a := by
  intro internal
  induction internal with
  | nil =>
    intro tx_to byName a
    simp [registerIssuances]
  | cons e t ih =>
    intro tx_to byName a
    have hstep : registerIssuances (e :: t) tx_to byName
        = registerIssuances t
          (mpInsert e.2.source_tx
            (insert e.1 ((mpLookup tx_to e.2.source_tx).getD ∅)) tx_to)
          (mpInsert e.1 e.2 byName) := rfl
    rw [hstep, ih, mpLookup_mpInsert]
    by_cases hj : e.2.source_tx = j
    · subst hj
      rw [if_pos rfl]
      simp only [Option.getD_some, Finset.mem_insert, List.mem_cons]
      constructor
      · rintro ((h1 | h1) | h1)
        · exact Or.inr ⟨e, Or.inl rfl, rfl, h1.symm⟩
        · exact Or.inl h1
        · rcases h1 with ⟨e2, he2, h2, h3⟩
          exact Or.inr ⟨e2, Or.inr he2, h2, h3⟩
      · rintro (h1 | ⟨e2, he2, h2, h3⟩)
        · exact Or.inl (Or.inr h1)
        · rcases he2 with he2 | he2
          · subst he2
            exact Or.inl (Or.inl h3.symm)
          · exact Or.inr ⟨e2, he2, h2, h3⟩
    · rw [if_neg hj]
      simp only [List.mem_cons]
      constructor
      · rintro (h1 | ⟨e2, he2, h2, h3⟩)
        · exact Or.inl h1
        · exact Or.inr ⟨e2, Or.inr he2, h2, h3⟩
      · rintro (h1 | ⟨e2, he2, h2, h3⟩)
        · exact Or.inl h1
        · rcases he2 with he2 | he2
          · subst he2
            exact absurd h2 hj
          · exact Or.inr ⟨e2, he2, h2, h3⟩

theorem nodup_mem_singleton {l : List Nat} {a : Nat} (hnd : l.Nodup)
    (hmem : ∀ b, b ∈ l ↔ b = a) : l = [a] := by
  cases l with
  | nil => exact absurd ((hmem a).2 rfl) (List.not_mem_nil a)
  | cons b t =>
    have hb : b = a := (hmem b).1 (List.mem_cons_self b t)
    subst hb
    have ht : t = [] := by
      cases t with
      | nil => rfl
      | cons c u =>
        have hc : c = b :=
          (hmem c).1 (List.mem_cons_of_mem b (List.mem_cons_self c u))
        rw [List.nodup_cons] at hnd
        refine absurd ?_ hnd.1
        rw [← hc]
        exact List.mem_cons_self c u
    rw [ht]

theorem mpKeys_nodup (m : Mp κ β) : (mpKeys m).Nodup := by
  have h2 : (mpKeys m).Pairwise (· < ·) := List.pairwise_map.2 m.property
  exact List.Pairwise.imp (fun h => ne_of_lt h) h2

theorem acceptTransactions_single (tc tr : Mp Nat (Finset String))
    (txs : Mp Nat MemPoolTx) (hashXs : Mp Nat (Finset Nat))
    (h : Nat) (t : MemPoolTx) (umap : List (Prevout × OutPair))
    (touched : Finset Nat) (assets : Finset String) (ips : List OutPair)
    (hres : resolvePrevouts umap txs t.prevouts = ResolveOut.ok ips) :
    acceptTransactions tc tr txs hashXs [(h, t)] umap touched assets
      = (⟨mpInsert h
            (⟨t.prevouts, some ips, t.out_pairs,
              max 0 (nativeSum ips - nativeSum t.out_pairs), t.size⟩
              : MemPoolTx) txs,
          (hashXsAdd h (ips ++ t.out_pairs) hashXs touched).1,
          [],
          (umap.map Prod.fst).toFinset \ t.prevouts.toFinset,
          (hashXsAdd h (ips ++ t.out_pairs) hashXs touched).2,
          (assets ∪ (mpLookup tc h).getD ∅) ∪ (mpLookup tr h).getD ∅,
          false⟩,
         umap.filter fun e =>
           e.1 ∈ (umap.map Prod.fst).toFinset \ t.prevouts.toFinset) := by
  unfold acceptTransactions
  rw [List.foldl_cons, List.foldl_nil]
  unfold acceptStep
  dsimp only
  rw [if_neg Bool.false_ne_true]
  simp only [hres]

theorem processMempool_single_accept (S : MState) (touched : Finset Nat)
    (assets : Finset String) (inp : PMIn) (h : Nat) (t : MemPoolTx)
    (ips : List OutPair)
    (hh : inp.mempool_height = inp.db_height)
    (hkeys : ∀ k ∈ mpKeys S.txs, k ∈ inp.all_hashes)
    (hmem : h ∈ inp.all_hashes)
    (hfresh : mpLookup S.txs h = none)
    (htm : inp.tx_map = [(h, t)])
    (hres : resolvePrevouts
        (buildUtxoMap (fetchPrevouts inp.tx_map inp.all_hashes) inp.utxo_res
          inp.asset_res) S.txs t.prevouts = ResolveOut.ok ips) :
    processMempool S touched assets inp
      = ⟨⟨mpInsert h
            (⟨t.prevouts, some ips, t.out_pairs,
              max 0 (nativeSum ips - nativeSum t.out_pairs), t.size⟩
              : MemPoolTx) S.txs,
          (hashXsAdd h (ips ++ t.out_pairs) S.hashXs touched).1,
          (registerIssuances inp.internal_creates S.tx_to_asset_create
            S.asset_creates).2,
          (registerIssuances inp.internal_creates S.tx_to_asset_create
            S.asset_creates).1,
          (registerIssuances inp.internal_reissues S.tx_to_asset_reissue
            S.asset_reissues).2,
          (registerIssuances inp.internal_reissues S.tx_to_asset_reissue
            S.asset_reissues).1⟩,
         (hashXsAdd h (ips ++ t.out_pairs) S.hashXs touched).2,
         (assets ∪ (mpLookup (registerIssuances inp.internal_creates
             S.tx_to_asset_create S.asset_creates).1 h).getD ∅)
           ∪ (mpLookup (registerIssuances inp.internal_reissues
             S.tx_to_asset_reissue S.asset_reissues).1 h).getD ∅,
         none⟩ := by
  have hA : ((mpKeys S.txs).filter fun k => k ∉ inp.all_hashes) = [] := by
    refine List.filter_eq_nil_iff.mpr ?_
    intro k hk
    simp only [decide_eq_true_eq, Decidable.not_not]
    exact hkeys k hk
  have hev : evictAll S touched inp.all_hashes = (S, touched) := by
    unfold evictAll
    rw [hA]
    rfl
  have hne : ¬inp.all_hashes \ (mpKeys S.txs).toFinset = ∅ := by
    refine Finset.ne_empty_of_mem (a := h) ?_
    refine Finset.mem_sdiff.mpr ⟨hmem, ?_⟩
    rw [List.mem_toFinset, mem_mpKeys_iff]
    simp [hfresh]
  unfold processMempool
  rw [if_neg (by simp [hh])]
  dsimp only
  rw [hev]
  dsimp only
  rw [if_neg hne, htm]
  rw [htm] at hres
  rw [acceptTransactions_single _ _ _ _ _ _ _ _ _ _ hres]
  dsimp only
  rw [if_neg Bool.false_ne_true]
  have hloop : ∀ (tc tr : Mp Nat (Finset String)) (A : Mp Nat MemPoolTx)
      (B : Mp Nat (Finset Nat)) (C : Finset Nat) (D : Finset String)
      (U : List (Prevout × OutPair)),
      acceptLoop 1 tc tr A B C D [] U 0 = ⟨A, B, [], U, C, D, false⟩ := by
    intro tc tr A B C D U
    rw [show (1 : Nat) = 0 + 1 from rfl, acceptLoop, if_neg (by simp)]
  rw [List.length_nil, hloop]
  rfl

theorem processMempool_evict_single (S1 : MState) (touched : Finset Nat)
    (assets : Finset String) (inp : PMIn) (h : Nat) (tx : MemPoolTx)
    (hh : inp.mempool_height = inp.db_height)
    (hfound : mpLookup S1.txs h = some tx)
    (hkeys : ∀ k, mpLookup S1.txs k ≠ none → k ≠ h → k ∈ inp.all_hashes)
    (hout : h ∉ inp.all_hashes)
    (hafter : inp.all_hashes \ (mpKeys (mpErase h S1.txs)).toFinset = ∅) :
    processMempool S1 touched assets inp
      = ⟨⟨mpErase h S1.txs,
          hashXsRemove h ((txHashXs tx).sort (· ≤ ·)) S1.hashXs,
          eraseAllAssets
            (((mpLookup S1.tx_to_asset_create h).getD ∅).sort (· ≤ ·))
            S1.asset_creates,
          mpErase h S1.tx_to_asset_create,
          eraseAllAssets
            (((mpLookup S1.tx_to_asset_reissue h).getD ∅).sort (· ≤ ·))
            S1.asset_reissues,
          mpErase h S1.tx_to_asset_reissue⟩,
         touched ∪ txHashXs tx,
         assets, none⟩ := by
  have hsingle : ((mpKeys S1.txs).filter fun k => k ∉ inp.all_hashes)
      = [h] := by
    refine nodup_mem_singleton (List.Nodup.filter _ (mpKeys_nodup S1.txs)) ?_
    intro b
    rw [List.mem_filter, mem_mpKeys_iff]
    constructor
    · rintro ⟨hb1, hb2⟩
      simp only [decide_eq_true_eq] at hb2
      by_contra hbh
      exact hb2 (hkeys b hb1 hbh)
    · rintro rfl
      refine ⟨by simp [hfound], by simpa using hout⟩
  have hev : evictAll S1 touched inp.all_hashes
      = (⟨mpErase h S1.txs,
          hashXsRemove h ((txHashXs tx).sort (· ≤ ·)) S1.hashXs,
          eraseAllAssets
            (((mpLookup S1.tx_to_asset_create h).getD ∅).sort (· ≤ ·))
            S1.asset_creates,
          mpErase h S1.tx_to_asset_create,
          eraseAllAssets
            (((mpLookup S1.tx_to_asset_reissue h).getD ∅).sort (· ≤ ·))
            S1.asset_reissues,
          mpErase h S1.tx_to_asset_reissue⟩,
         touched ∪ txHashXs tx) := by
    unfold evictAll
    rw [hsingle, List.foldl_cons, List.foldl_nil]
    unfold evictOne
    simp only [hfound]
  unfold processMempool
  rw [if_neg (by simp [hh])]
  dsimp only
  rw [hev]
  dsimp only
  rw [if_pos hafter]

/-- claim C9: digesting and accepting a fresh transaction (hash absent
from `txs` and from every `hashXs` set, issuance names absent from the
asset maps, registrations pointing at it) and then evicting it in the
next cycle (its hash absent from the newly reported hash set) returns
`txs`, `hashXs`, `asset_creates`, `asset_reissues`,
`tx_to_asset_create` and `tx_to_asset_reissue` exactly to the prior
state, with neither cycle raising. -/
theorem C9_roundtrip (S : MState) (touched₁ touched₂ : Finset Nat)
    (assets₁ assets₂ : Finset String) (inp1 inp2 : PMIn) (h : Nat)
    (t : MemPoolTx) (ips : List OutPair)
    (hfreshTxs : mpLookup S.txs h = none)
    (hhxClean : ∀ sh, h ∉ (mpLookup S.hashXs sh).getD ∅)
    (hhxNe : ∀ sh s, mpLookup S.hashXs sh = some s → s ≠ ∅)
    (htcFresh : mpLookup S.tx_to_asset_create h = none)
    (htrFresh : mpLookup S.tx_to_asset_reissue h = none)
    (hcrNames : ∀ e ∈ inp1.internal_creates,
      mpLookup S.asset_creates e.1 = none ∧ e.2.source_tx = h)
    (hreNames : ∀ e ∈ inp1.internal_reissues,
      mpLookup S.asset_reissues e.1 = none ∧ e.2.source_tx = h)
    (hh1 : inp1.mempool_height = inp1.db_height)
    (hkeys1 : ∀ k ∈ mpKeys S.txs, k ∈ inp1.all_hashes)
    (hmem1 : h ∈ inp1.all_hashes)
    (htm1 : inp1.tx_map = [(h, t)])
    (hres : resolvePrevouts
        (buildUtxoMap (fetchPrevouts inp1.tx_map inp1.all_hashes)
          inp1.utxo_res inp1.asset_res) S.txs t.prevouts
        = ResolveOut.ok ips)
    (hh2 : inp2.mempool_height = inp2.db_height)
    (hall2 : inp2.all_hashes = (mpKeys S.txs).toFinset) :
    (processMempool (processMempool S touched₁ assets₁ inp1).state touched₂
        assets₂ inp2).state = S
      ∧ (processMempool S touched₁ assets₁ inp1).err = none
      ∧ (processMempool (processMempool S touched₁ assets₁ inp1).state
          touched₂ assets₂ inp2).err = none := by
  have e1 : mpErase h (mpInsert h
      (⟨t.prevouts, some ips, t.out_pairs,
        max 0 (nativeSum ips - nativeSum t.out_pairs), t.size⟩ : MemPoolTx)
      S.txs) = S.txs := by
    refine mp_ext ?_
    intro j
    rw [mpLookup_mpErase, mpLookup_mpInsert]
    by_cases hj : h = j
    · rw [if_pos hj, ← hj, hfreshTxs]
    · rw [if_neg hj, if_neg hj]
  have e2 : hashXsRemove h
      ((txHashXs (⟨t.prevouts, some ips, t.out_pairs,
        max 0 (nativeSum ips - nativeSum t.out_pairs), t.size⟩
          : MemPoolTx)).sort (· ≤ ·))
      (hashXsAdd h (ips ++ t.out_pairs) S.hashXs touched₁).1
      = S.hashXs := by
    refine mp_ext ?_
    intro sh
    rw [hashXsRemove_lookup_eq, hashXsAdd_lookup_eq]
    have hPQ : (sh ∈ (txHashXs (⟨t.prevouts, some ips, t.out_pairs,
        max 0 (nativeSum ips - nativeSum t.out_pairs), t.size⟩
          : MemPoolTx)).sort (· ≤ ·))
        ↔ sh ∈ (ips ++ t.out_pairs).map OutPair.hashX := by
      rw [Finset.mem_sort]
      simp [txHashXs]
    by_cases hq : sh ∈ (ips ++ t.out_pairs).map OutPair.hashX
    · rw [if_pos (hPQ.2 hq), if_pos hq, Option.getD_some,
        Finset.erase_insert (hhxClean sh)]
      rcases hsh : mpLookup S.hashXs sh with _ | s
      · simp
      · rw [Option.getD_some, if_neg (hhxNe sh s hsh)]
    · rw [if_neg (fun hp => hq (hPQ.1 hp)), if_neg hq]
  have e3 : eraseAllAssets
      (((mpLookup (registerIssuances inp1.internal_creates
        S.tx_to_asset_create S.asset_creates).1 h).getD ∅).sort (· ≤ ·))
      (registerIssuances inp1.internal_creates S.tx_to_asset_create
        S.asset_creates).2
      = S.asset_creates := by
    refine mp_ext ?_
    intro a
    rw [mpLookup_eraseAllAssets]
    by_cases hin : a ∈ ((mpLookup (registerIssuances inp1.internal_creates
        S.tx_to_asset_create S.asset_creates).1 h).getD ∅).sort (· ≤ ·)
    · rw [if_pos hin]
      rw [Finset.mem_sort, registerIssuances_mem_tx] at hin
      rcases hin with hin | ⟨e, he, hsrc, hname⟩
      · rw [htcFresh] at hin
        simp at hin
      · rw [← hname]
        exact ((hcrNames e he).1).symm
    · rw [if_neg hin]
      rw [Finset.mem_sort, registerIssuances_mem_tx] at hin
      push_neg at hin
      refine registerIssuances_lookup_name a _ _ _ ?_
      intro e he hname
      exact hin.2 e he (hcrNames e he).2 hname
  have e4 : mpErase h (registerIssuances inp1.internal_creates
      S.tx_to_asset_create S.asset_creates).1 = S.tx_to_asset_create := by
    refine mp_ext ?_
    intro j
    rw [mpLookup_mpErase]
    by_cases hj : h = j
    · rw [if_pos hj, ← hj, htcFresh]
    · rw [if_neg hj]
      exact registerIssuances_lookup_tx j _ _ _
        (fun e he hh => hj (((hcrNames e he).2).symm.trans hh))
  have e5 : eraseAllAssets
      (((mpLookup (registerIssuances inp1.internal_reissues
        S.tx_to_asset_reissue S.asset_reissues).1 h).getD ∅).sort (· ≤ ·))
      (registerIssuances inp1.internal_reissues S.tx_to_asset_reissue
        S.asset_reissues).2
      = S.asset_reissues := by
    refine mp_ext ?_
    intro a
    rw [mpLookup_eraseAllAssets]
    by_cases hin : a ∈ ((mpLookup (registerIssuances inp1.internal_reissues
        S.tx_to_asset_reissue S.asset_reissues).1 h).getD ∅).sort (· ≤ ·)
    · rw [if_pos hin]
      rw [Finset.mem_sort, registerIssuances_mem_tx] at hin
      rcases hin with hin | ⟨e, he, hsrc, hname⟩
      · rw [htrFresh] at hin
        simp at hin
      · rw [← hname]
        exact ((hreNames e he).1).symm
    · rw [if_neg hin]
      rw [Finset.mem_sort, registerIssuances_mem_tx] at hin
      push_neg at hin
      refine registerIssuances_lookup_name a _ _ _ ?_
      intro e he hname
      exact hin.2 e he (hreNames e he).2 hname
  have e6 : mpErase h (registerIssuances inp1.internal_reissues
      S.tx_to_asset_reissue S.asset_reissues).1 = S.tx_to_asset_reissue := by
    refine mp_ext ?_
    intro j
    rw [mpLookup_mpErase]
    by_cases hj : h = j
    · rw [if_pos hj, ← hj, htrFresh]
    · rw [if_neg hj]
      exact registerIssuances_lookup_tx j _ _ _
        (fun e he hh => hj (((hreNames e he).2).symm.trans hh))
  rw [processMempool_single_accept S touched₁ assets₁ inp1 h t ips hh1 hkeys1
    hmem1 hfreshTxs htm1 hres]
  dsimp only
  rw [processMempool_evict_single _ touched₂ assets₂ inp2 h
    (⟨t.prevouts, some ips, t.out_pairs,
      max 0 (nativeSum ips - nativeSum t.out_pairs), t.size⟩ : MemPoolTx)
    hh2
    (by rw [mpLookup_mpInsert, if_pos rfl])
    (by
      intro k hk hkh
      rw [mpLookup_mpInsert, if_neg (fun hh => hkh hh.symm)] at hk
      rw [hall2, List.mem_toFinset, mem_mpKeys_iff]
      exact hk)
    (by
      rw [hall2, List.mem_toFinset, mem_mpKeys_iff]
      simp [hfreshTxs])
    (by
      show inp2.all_hashes \ (mpKeys (mpErase h (mpInsert h _ S.txs))).toFinset = ∅
      rw [e1, hall2]
      exact Finset.sdiff_self _)]
  dsimp only
  rw [e1, e2, e3, e4, e5, e6]
  exact ⟨rfl, rfl, rfl⟩

def c9S : MState := ⟨mpEmpty, mpEmpty, mpEmpty, mpEmpty, mpEmpty, mpEmpty⟩

def c9t : MemPoolTx := ⟨[], none, [⟨5, 10, false, none⟩], 0, 100⟩

def c9iss : AssetIssuance := ⟨1000, 0, true, false, none, 1, 0, -1⟩

def c9inp1 : PMIn := ⟨{1}, 7, 7, [(1, c9t)], [("A", c9iss)], [], [], []⟩

def c9inp2 : PMIn := ⟨∅, 7, 7, [], [], [], [], []⟩

/-- Witness for C9: accepting one issuing transaction into the empty
mempool and evicting it next cycle restores every index. -/
theorem C9_roundtrip_witness :
    (processMempool (processMempool c9S ∅ ∅ c9inp1).state ∅ ∅ c9inp2).state
        = c9S
      ∧ (processMempool c9S ∅ ∅ c9inp1).err = none
      ∧ (processMempool (processMempool c9S ∅ ∅ c9inp1).state ∅ ∅
          c9inp2).err = none :=
  C9_roundtrip c9S ∅ ∅ ∅ ∅ c9inp1 c9inp2 1 c9t []
    rfl
    (fun sh => Finset.not_mem_empty 1)
    (fun sh s hs => Option.noConfusion hs)
    rfl rfl
    (by decide)
    (fun e he => absurd he (List.not_mem_nil e))
    rfl
    (fun k hk => absurd hk (List.not_mem_nil k))
    (by decide)
    rfl rfl rfl
    (by decide)
